import Mathlib

/-!
Verification of the masking and scheduling engine of `src/model/soundstorm.py`.

The development shallowly embeds the code that the claims are about:

* the reserved token ids fixed in `SoundStorm.__init__` (lines 78-99),
* the training masker `_level_mask` / `_fine_mask` / `_masking` (lines 175-211),
* the `top_k` logit filter (lines 26-31),
* the inference scheduler inside `generate` (lines 281-358).

Tensors of shape `(1, time)` become `List ℕ` (codes) and `List Bool` (mask
flags); float tensors become `List ℚ`.  The external sequence model
(`Conformer`), the Gumbel noise stream and the real-valued softmax are out of
scope of the spec, so the per-step sampled ids and per-position confidence
scores are parameters (`sampledO`, `scoreO`) of the scheduler embedding; the
theorems carry the bounds those pipelines guarantee (a sampled id is an argmax
over the 1025 logit entries, hence `< 1025`; a confidence score is
`1 - softmax probability`, hence nonnegative).  The cosine schedule
`(cosine_schedule(torch.linspace(0,1,S+1)[1:]) * seq_len).long()` is
real-valued, so the scheduler takes the materialized list of per-step counts
(the code materializes it too, via `.tolist()`), and the predicate `schedSpec`
states that the list is exactly that cosine schedule; `.long()` truncates
toward zero, which on `[0, pi/2]` (where `cos` is nonnegative) is `Int.floor`.
-/

namespace SoundStormPy

/-- Reserved mask id from `__init__` line 98: `self.mask_token_id = acoustic_codebook_size`,
with `acoustic_codebook_size = 1025` forced by the assert on line 84. -/
def maskTokenId : ℕ := 1025

/-- Reserved id for not-yet-reached fine levels, `__init__` line 99:
`self.mask_upper_level = acoustic_codebook_size`. -/
def maskUpperLevel : ℕ := 1025

/-- Loss sentinel, `__init__` line 81: `self.ignore_index = acoustic_codebook_size`. -/
def ignoreIndex : ℕ := 1025

/-- Stand-in for `-torch.finfo(scores.dtype).max` (line 349); its only relevant
property is that it is smaller than every real confidence score, which lies in
`[0, 1]`.  `torch.finfo(float32).max` is just below `2^128`. -/
def negInf : ℚ := -(2 ^ 128)

/-- Elementwise `torch.where(mask, a, b)`. -/
def torchWhere {α : Type} : List Bool → List α → List α → List α
  | m :: ms, a :: as, b :: bs => (if m then a else b) :: torchWhere ms as bs
  | _, _, _ => []

/-- First pair attaining the maximal second component among `x :: xs`
(the fold keeps the earlier element on ties, matching `torch.topk`'s
lower-index-first tie-breaking). -/
def maxPair (x : ℕ × ℚ) (xs : List (ℕ × ℚ)) : ℕ × ℚ :=
  xs.foldl (fun b p => if b.2 < p.2 then p else b) x

/-- Removal of the first occurrence of a pair (the extraction step of the
`torch.topk` selection). -/
def removePair : List (ℕ × ℚ) → (ℕ × ℚ) → List (ℕ × ℚ)
  | [], _ => []
  | x :: xs, b => if x = b then xs else x :: removePair xs b

/-- Selection core of `torch.topk(..., k)`: the `k` pairs with the largest
second components, in decreasing order, repeatedly extracting a maximum. -/
def selectTopP : ℕ → List (ℕ × ℚ) → List (ℕ × ℚ)
  | 0, _ => []
  | _ + 1, [] => []
  | n + 1, x :: xs =>
      maxPair x xs :: selectTopP n (removePair (x :: xs) (maxPair x xs))

/-- Indices returned by `torch.topk(xs, n).indices` for a 1-d score list. -/
def topkIndices (n : ℕ) (xs : List ℚ) : List ℕ :=
  (selectTopP n xs.enum).map Prod.fst

/-- Per-level slice of the generation buffers of `generate`:
`seq[:, :, rvq_layer]` (line 313) and `mask[:, :, rvq_layer]` (line 314) for
batch size 1.  The prompt is a separate tensor (line 291) that is only
concatenated into the network input and the final output; it has no mask
state and is never written. -/
structure LState where
  seq : List ℕ
  flag : List Bool
deriving Repr, DecidableEq

/-- Buffers at the start of a level: line 313 `torch.full(shape, mask_token_id)`
and line 314 `torch.full(shape, True)` restricted to one level. -/
def initState (N : ℕ) : LState :=
  ⟨List.replicate N maskTokenId, List.replicate N true⟩

/-- Line 349: `scores.masked_fill(~mask[:, :, rvq_layer], -torch.finfo(...).max)`. -/
def scoreFill (flag : List Bool) (score : List ℚ) : List ℚ :=
  List.zipWith (fun f s => if f then s else negInf) flag score

/-- One pass of the inner loop of `generate` (lines 326-355) at a fixed level,
given that step's sampled ids (line 334) and confidence scores (lines 340-342):
provisionally fill every still-masked position with its sample (line 338);
if this step's target count is zero, stop there (lines 345-346); otherwise
re-mask the `n` least confident previously-masked positions (lines 348-355). -/
def levelStep (sampled : List ℕ) (score : List ℚ) (n : ℕ) (st : LState) : LState :=
  let seq1 := torchWhere st.flag sampled st.seq
  if n = 0 then ⟨seq1, st.flag⟩
  else
    let sel := topkIndices n (scoreFill st.flag score)
    let flag1 := (List.range st.flag.length).map (fun j => decide (j ∈ sel))
    ⟨List.zipWith (fun f v => if f then maskTokenId else v) flag1 seq1, flag1⟩

/-- Inner loop of `generate` over the materialized schedule
`all_mask_num_tokens.tolist()` (line 326), threading the step index into the
sampling oracles. -/
def decodeAux (sampledO : ℕ → List ℕ) (scoreO : ℕ → List ℚ) :
    List ℕ → ℕ → LState → LState
  | [], _, st => st
  | n :: ns, i, st =>
      decodeAux sampledO scoreO ns (i + 1) (levelStep (sampledO i) (scoreO i) n st)

/-- Complete decoding of one RVQ level (the body of the `for rvq_layer` loop,
lines 319-355, acting on that level's buffer slice). -/
def decodeLevel (sampledO : ℕ → List ℕ) (scoreO : ℕ → List ℚ)
    (sched : List ℕ) (st : LState) : LState :=
  decodeAux sampledO scoreO sched 0 st

/-- Count of positions currently flagged masked in a level slice. -/
def flagCount (st : LState) : ℕ := st.flag.countP (fun b => b)

/-- Count of buffer positions currently holding the mask id. -/
def countMaskId (st : LState) : ℕ :=
  st.seq.countP (fun v => decide (v = maskTokenId))

/-- Characterization of lines 322-324: `sched` is the materialized
`(cosine_schedule(torch.linspace(0., 1., S + 1)[1:]) * N).long()`, i.e. entry
`j` (0-based) is `cos((j+1)/S * pi/2) * N` truncated toward zero; on `[0, pi/2]`
the cosine is nonnegative, so truncation is the floor. -/
def schedSpec (S N : ℕ) (sched : List ℕ) : Prop :=
  sched.length = S ∧
    ∀ j : ℕ, j < S →
      (sched.getD j 0 : ℤ) =
        ⌊Real.cos (((j : ℝ) + 1) / (S : ℝ) * (Real.pi / 2)) * (N : ℝ)⌋

/-- Feasibility of a schedule from a starting masked count `c`: each target is
at most the masked count the previous steps leave behind (a zero target leaves
the flags untouched, a positive target `m` leaves exactly `m` flags set). -/
def feas : ℕ → List ℕ → Prop
  | _, [] => True
  | c, m :: ms => m ≤ c ∧ feas (if m = 0 then c else m) ms

/-- Well-formedness of a level slice: both buffers have the level length, any
position holding the mask id is flagged masked, and buffer values never exceed
the mask id.  All three hold for `initState` and are preserved by `levelStep`. -/
def StOk (N : ℕ) (st : LState) : Prop :=
  st.seq.length = N ∧ st.flag.length = N ∧
    (∀ p, p < N → st.seq.getD p 0 = maskTokenId → st.flag.getD p false = true) ∧
    (∀ v ∈ st.seq, v ≤ maskTokenId)

/-- Bounds guaranteed by the sampling pipeline for one step: lengths match the
level, `gumbel_sample` (line 334) is an argmax over the 1025 logit entries of
the level (line 329 reshapes to `[..., 8, 1025]`), so sampled ids are below
`mask_token_id = 1025`, and scores (line 340: `1 - softmax(...)`) are
nonnegative. -/
def OracleOk (N : ℕ) (sampled : List ℕ) (score : List ℚ) : Prop :=
  sampled.length = N ∧ score.length = N ∧
    (∀ v ∈ sampled, v < maskTokenId) ∧ (∀ s ∈ score, 0 ≤ s)

/-! Training masker (lines 175-211). -/

/-- Mask selection of `_level_mask` (lines 177-184) for one batch item, with
the stochastic draws made explicit: `r` is `cosine_schedule(rand_times)` for
this item (a value in `[0, 1]`) and `perm` is this item's row of
`batched_randperm`, a permutation of `0 .. M-1` where `M = seq_len - t`.
`num_tokens_mask = (r * M).clamp(min=1)` and a continuation position is masked
iff its permutation rank is (as a float) below that threshold; the `t` prompt
positions are prepended unmasked (`prompt_mask`, lines 183-184). -/
def levelMaskBits (t M : ℕ) (r : ℚ) (perm : List ℕ) : List Bool :=
  List.replicate t false ++
    perm.map (fun v : ℕ => decide ((v : ℚ) < max 1 (r * (M : ℚ))))

/-- Lines 186-189 of `_level_mask`: the returned `(code, labels)` pair.
`labels = torch.where(mask, code, ignore_index)` and
`code = torch.where(mask, mask_token_id, code)`; both are fresh tensors. -/
def levelMask (code : List ℕ) (t : ℕ) (r : ℚ) (perm : List ℕ) :
    List ℕ × List ℕ :=
  (List.zipWith (fun m c => if m then maskTokenId else c)
    (levelMaskBits t (code.length - t) r perm) code,
   List.zipWith (fun m c => if m then c else ignoreIndex)
    (levelMaskBits t (code.length - t) r perm) code)

/-- Body of `_fine_mask` (lines 191-193): `code[:, t:] = self.mask_upper_level`.
The returned list is the content of the (mutated) row. -/
def fineMask (code : List ℕ) (t : ℕ) : List ℕ :=
  code.take t ++ List.replicate (code.length - t) maskUpperLevel

/-- One iteration of the `for i, code in enumerate(codes)` loop of `_masking`
(lines 202-209) on level `i`'s row.  First component: the row appended to
`masked_codes`.  Second component: the content of the caller's storage row
after the iteration.  `rearrange(codes, 'b n q -> q b n')` (line 198) is a
permuted *view* of the caller's tensor, `_level_mask` builds fresh tensors
with `torch.where` (so the `i = q` branch leaves the storage untouched), while
`_fine_mask` assigns through the view (`code[:, t:] = ...`), so for `i > q`
the storage row becomes the fine-masked row itself. -/
def maskLevelRow (q t : ℕ) (r : ℚ) (perm : List ℕ) (i : ℕ) (row : List ℕ) :
    List ℕ × List ℕ :=
  if i = q then ((levelMask row t r perm).1, row)
  else if q < i then (fineMask row t, fineMask row t)
  else (row, row)

/-- Level `i`'s row of a `(time, levels)` code array (`codes[:, :, i]` for
batch size 1). -/
def column (codes : List (List ℕ)) (i : ℕ) : List ℕ :=
  codes.map (fun row => row.getD i 0)

/-- Result of `_masking` (lines 195-211) for batch size 1: the list
`masked_codes` (level-major) and the `labels` row produced at level `q`. -/
def masking (codes : List (List ℕ)) (nq q t : ℕ) (r : ℚ) (perm : List ℕ) :
    List (List ℕ) × List ℕ :=
  ((List.range nq).map (fun i => (maskLevelRow q t r perm i (column codes i)).1),
   (levelMask (column codes q) t r perm).2)

/-- Level-major contents of the caller's `codes` tensor after `_masking`
returns (see `maskLevelRow`). -/
def maskingCallerRows (codes : List (List ℕ)) (nq q t : ℕ) (r : ℚ)
    (perm : List ℕ) : List (List ℕ) :=
  (List.range nq).map (fun i => (maskLevelRow q t r perm i (column codes i)).2)

/-- Contents of the caller's `codes` tensor after `_masking` returns, in the
caller's `(time, levels)` layout. -/
def maskingCaller (codes : List (List ℕ)) (nq q t : ℕ) (r : ℚ)
    (perm : List ℕ) : List (List ℕ) :=
  (maskingCallerRows codes nq q t r perm).transpose

/-! The `top_k` filter (lines 26-31). -/

/-- Lines 26-31: `k = math.ceil((1 - thres) * logits.shape[-1])`, take the top
`k` logits and scatter them into a tensor of `-inf`.  Applied here to one
position's logit row; `none` stands for `-inf`. -/
def top_k (thres : ℚ) (logits : List ℚ) : List (Option ℚ) :=
  let k := (Int.ceil ((1 - thres) * (logits.length : ℚ))).toNat
  let sel := topkIndices k logits
  logits.enum.map (fun p => if p.1 ∈ sel then some p.2 else none)

/-! Construction (`__init__`, lines 56-159) and the `generate` driver. -/

/-- Configuration fields of `__init__` relevant to the claims. -/
structure Config where
  acousticCodebookSize : ℕ
  acousticNumQuantizers : ℕ
  inferenceSteps : List ℕ
  filterThreshold : ℚ
  temperature : ℚ

/-- Model state set up by `__init__` (the fields the claims are about). -/
structure SoundStormM where
  steps : List ℕ
  filterThreshold : ℚ
  temperature : ℚ
  ignoreIdx : ℕ
  nQ : ℕ
  maskTokId : ℕ
  maskUpper : ℕ
deriving Repr, DecidableEq

/-- Construction, `__init__` lines 78-99.  The only construction-time check is
the assert on line 84 (`self.ignore_index == 1025`); `inference_steps` is
stored (line 78) without any validation of its length. -/
def mkSoundStorm (cfg : Config) : Except String SoundStormM :=
  if cfg.acousticCodebookSize = 1025 then
    .ok ⟨cfg.inferenceSteps, cfg.filterThreshold, cfg.temperature,
         cfg.acousticCodebookSize, cfg.acousticNumQuantizers,
         cfg.acousticCodebookSize, cfg.acousticCodebookSize⟩
  else
    .error "AssertionError: ignore_index must be 1025"

/-- The `for rvq_layer in range(8)` loop of `generate` (lines 319-355) over the
given list of level indices.  Each iteration first evaluates
`self.steps[rvq_layer]` (line 322), which raises `IndexError` when the list is
too short; otherwise the level is decoded from the all-masked `initState`.
`schedF k S` is the materialized cosine schedule for level `k` with `S` steps
(lines 323-324); `sampledO k` / `scoreO k` are level `k`'s sampling oracles. -/
def genLevels (steps : List ℕ) (schedF : ℕ → ℕ → List ℕ)
    (sampledO : ℕ → ℕ → List ℕ) (scoreO : ℕ → ℕ → List ℚ) (N : ℕ) :
    List ℕ → Except String (List LState)
  | [] => .ok []
  | k :: ks =>
      match steps[k]? with
      | none => .error "IndexError: list index out of range"
      | some S =>
          (genLevels steps schedF sampledO scoreO N ks).map
            (fun rest =>
              decodeLevel (sampledO k) (scoreO k) (schedF k S) (initState N) :: rest)

/-- The `generate` method (lines 281-358) after the prompt split: decode the 8
levels of the continuation buffer in order and return
`torch.cat([prompt, seq], dim=1)` (line 357) in `(time, levels)` layout. -/
def generate (steps : List ℕ) (schedF : ℕ → ℕ → List ℕ)
    (sampledO : ℕ → ℕ → List ℕ) (scoreO : ℕ → ℕ → List ℚ)
    (prompt : List (List ℕ)) (N : ℕ) : Except String (List (List ℕ)) :=
  (genLevels steps schedF sampledO scoreO N (List.range 8)).map
    (fun sts => prompt ++ (sts.map LState.seq).transpose)

/-! Concrete sampling streams and a concrete configuration used for the
evaluations of the development on small inputs. -/

/-- A concrete sampled-id stream for a level of length 1 (always id 3). -/
def wSampled : ℕ → List ℕ := fun _ => [3]

/-- A concrete confidence-score stream for a level of length 1. -/
def wScore : ℕ → List ℚ := fun _ => [1/2]

/-- A concrete configuration with a 7-entry `inference_steps` list against 8
quantizer levels. -/
def cfg7 : Config :=
  ⟨1025, 8, [1, 1, 1, 1, 1, 1, 1], 9/10, 1⟩

/-! Pointwise lemmas for the elementwise tensor operations. -/

theorem length_torchWhere {α : Type} (m : List Bool) (a b : List α)
    (ha : a.length = m.length) (hb : b.length = m.length) :
    (torchWhere m a b).length = m.length := by
  induction m generalizing a b with
  | nil => simp [torchWhere]
  | cons mh mt ih =>
    cases a with
    | nil => simp at ha
    | cons ah ta =>
      cases b with
      | nil => simp at hb
      | cons bh tb =>
        simp only [List.length_cons] at ha hb
        simp only [torchWhere, List.length_cons]
        exact congrArg (· + 1) (ih ta tb (by omega) (by omega))

theorem torchWhere_getD {α : Type} (m : List Bool) (a b : List α) (d : α)
    (ha : a.length = m.length) (hb : b.length = m.length) (p : ℕ) :
    (torchWhere m a b).getD p d =
      if m.getD p false then a.getD p d else b.getD p d := by
  induction m generalizing a b p with
  | nil =>
    rw [List.length_eq_zero.mp ha, List.length_eq_zero.mp hb]
    simp [torchWhere]
  | cons mh mt ih =>
    cases a with
    | nil => simp at ha
    | cons ah ta =>
      cases b with
      | nil => simp at hb
      | cons bh tb =>
        simp only [List.length_cons] at ha hb
        cases p with
        | zero => simp [torchWhere]
        | succ p =>
          simp only [torchWhere, List.getD_cons_succ]
          exact ih ta tb (by omega) (by omega) p

theorem mem_torchWhere {α : Type} {v : α} {m : List Bool} {a b : List α}
    (hv : v ∈ torchWhere m a b) : v ∈ a ∨ v ∈ b := by
  induction m generalizing a b with
  | nil => simp [torchWhere] at hv
  | cons mh mt ih =>
    cases a with
    | nil => simp [torchWhere] at hv
    | cons ah ta =>
      cases b with
      | nil => simp [torchWhere] at hv
      | cons bh tb =>
        simp only [torchWhere, List.mem_cons] at hv
        rcases hv with hv | hv
        · cases mh with
          | true =>
            simp only [if_pos rfl] at hv
            exact Or.inl (hv ▸ List.mem_cons_self ah ta)
          | false =>
            simp only [Bool.false_eq_true, if_false] at hv
            exact Or.inr (hv ▸ List.mem_cons_self bh tb)
        · rcases ih hv with h | h
          · exact Or.inl (List.mem_cons_of_mem _ h)
          · exact Or.inr (List.mem_cons_of_mem _ h)

theorem zipWith_bool_getD {α : Type} (g : Bool → α → α) (m : List Bool)
    (xs : List α) (d : α) (h : xs.length = m.length) (p : ℕ)
    (hp : p < m.length) :
    (List.zipWith g m xs).getD p d = g (m.getD p false) (xs.getD p d) := by
  induction m generalizing xs p with
  | nil => simp at hp
  | cons mh mt ih =>
    cases xs with
    | nil => simp at h
    | cons xh tx =>
      simp only [List.length_cons] at h hp
      cases p with
      | zero => simp
      | succ p =>
        simp only [List.zipWith_cons_cons, List.getD_cons_succ]
        exact ih tx (by omega) p (by omega)

theorem mem_zipWith_bool {α : Type} (g : Bool → α → α) {v : α}
    {m : List Bool} {xs : List α} (hv : v ∈ List.zipWith g m xs) :
    ∃ f x, x ∈ xs ∧ v = g f x := by
  induction m generalizing xs with
  | nil => simp at hv
  | cons mh mt ih =>
    cases xs with
    | nil => simp at hv
    | cons xh tx =>
      simp only [List.zipWith_cons_cons, List.mem_cons] at hv
      rcases hv with hv | hv
      · exact ⟨mh, xh, List.mem_cons_self xh tx, hv⟩
      · obtain ⟨f, x, hx, he⟩ := ih hv
        exact ⟨f, x, List.mem_cons_of_mem _ hx, he⟩

/-! Theory of the `torch.topk` selection core. -/

theorem foldl_max_mem (xs : List (ℕ × ℚ)) (b : ℕ × ℚ) :
    xs.foldl (fun b p => if b.2 < p.2 then p else b) b ∈ b :: xs := by
  induction xs generalizing b with
  | nil => simp
  | cons y ys ih =>
    simp only [List.foldl_cons]
    rcases List.mem_cons.mp (ih (if b.2 < y.2 then y else b)) with h | h
    · by_cases hc : b.2 < y.2
      · rw [if_pos hc] at h ⊢
        rw [h]
        exact List.mem_cons_of_mem _ (List.mem_cons_self y ys)
      · rw [if_neg hc] at h ⊢
        rw [h]
        exact List.mem_cons_self b _
    · exact List.mem_cons_of_mem _ (List.mem_cons_of_mem _ h)

theorem foldl_max_ge_init (xs : List (ℕ × ℚ)) (b : ℕ × ℚ) :
    b.2 ≤ (xs.foldl (fun b p => if b.2 < p.2 then p else b) b).2 := by
  induction xs generalizing b with
  | nil => simp
  | cons y ys ih =>
    simp only [List.foldl_cons]
    refine le_trans ?_ (ih (if b.2 < y.2 then y else b))
    by_cases hc : b.2 < y.2 <;> simp [hc]
    exact le_of_lt hc

theorem foldl_max_ge (xs : List (ℕ × ℚ)) (b : ℕ × ℚ) (p : ℕ × ℚ)
    (hp : p ∈ b :: xs) :
    p.2 ≤ (xs.foldl (fun b p => if b.2 < p.2 then p else b) b).2 := by
  induction xs generalizing b with
  | nil =>
    have : p = b := by simpa using hp
    simp [this]
  | cons y ys ih =>
    simp only [List.foldl_cons]
    have hbranch : p.2 ≤ (if b.2 < y.2 then y else b).2 ∨
        p ∈ (if b.2 < y.2 then y else b) :: ys := by
      rcases List.mem_cons.mp hp with hpb | hp'
      · left
        rw [hpb]
        by_cases hc : b.2 < y.2
        · rw [if_pos hc]; exact le_of_lt hc
        · rw [if_neg hc]
      · rcases List.mem_cons.mp hp' with hpy | hpys
        · left
          rw [hpy]
          by_cases hc : b.2 < y.2
          · rw [if_pos hc]
          · rw [if_neg hc]; exact le_of_not_lt hc
        · right; exact List.mem_cons_of_mem _ hpys
    rcases hbranch with h | h
    · exact le_trans h (foldl_max_ge_init ys _)
    · exact ih _ h

theorem maxPair_mem (x : ℕ × ℚ) (xs : List (ℕ × ℚ)) :
    maxPair x xs ∈ x :: xs :=
  foldl_max_mem xs x

theorem maxPair_ge (x : ℕ × ℚ) (xs : List (ℕ × ℚ)) (p : ℕ × ℚ)
    (hp : p ∈ x :: xs) : p.2 ≤ (maxPair x xs).2 :=
  foldl_max_ge xs x p hp

theorem removePair_perm (l : List (ℕ × ℚ)) (b : ℕ × ℚ) (hb : b ∈ l) :
    l.Perm (b :: removePair l b) := by
  induction l with
  | nil => simp at hb
  | cons x xs ih =>
    by_cases hx : x = b
    · subst hx
      simp only [removePair, if_pos rfl]
      exact List.Perm.refl _
    · have hbxs : b ∈ xs := by
        rcases List.mem_cons.mp hb with h | h
        · exact absurd h.symm hx
        · exact h
      have h1 : removePair (x :: xs) b = x :: removePair xs b := by
        simp only [removePair, if_neg hx]
      rw [h1]
      exact ((ih hbxs).cons x).trans (List.Perm.swap b x _)

theorem mem_removePair (l : List (ℕ × ℚ)) (b q : ℕ × ℚ) (hq : q ∈ l)
    (hne : q ≠ b) : q ∈ removePair l b := by
  induction l with
  | nil => simp at hq
  | cons x xs ih =>
    by_cases hx : x = b
    · simp only [removePair, if_pos hx]
      rcases List.mem_cons.mp hq with h | h
      · exact absurd (h.trans hx) hne
      · exact h
    · simp only [removePair, if_neg hx]
      rcases List.mem_cons.mp hq with h | h
      · exact h ▸ List.mem_cons_self x _
      · exact List.mem_cons_of_mem _ (ih h)

theorem selectTopP_subperm (n : ℕ) (xs : List (ℕ × ℚ)) :
    (selectTopP n xs).Subperm xs := by
  induction n generalizing xs with
  | zero => simp [selectTopP, List.nil_subperm]
  | succ n ih =>
    cases xs with
    | nil => simp [selectTopP, List.nil_subperm]
    | cons x txs =>
      have hperm := removePair_perm _ _ (maxPair_mem x txs)
      obtain ⟨l, hl, hls⟩ := ih (removePair (x :: txs) (maxPair x txs))
      refine List.Subperm.trans ⟨maxPair x txs :: l, hl.cons _, hls.cons₂ _⟩ ?_
      exact hperm.symm.subperm

theorem length_selectTopP (n : ℕ) (xs : List (ℕ × ℚ)) :
    (selectTopP n xs).length = min n xs.length := by
  induction n generalizing xs with
  | zero => simp [selectTopP]
  | succ n ih =>
    cases xs with
    | nil => simp [selectTopP]
    | cons x txs =>
      have hperm := removePair_perm _ _ (maxPair_mem x txs)
      have hlen : (removePair (x :: txs) (maxPair x txs)).length = txs.length := by
        have := hperm.length_eq
        simp only [List.length_cons] at this
        omega
      simp only [selectTopP, List.length_cons, ih, hlen]
      omega

theorem selectTopP_threshold (c : ℚ) :
    ∀ (n : ℕ) (xs : List (ℕ × ℚ)),
      n ≤ xs.countP (fun p => decide (c ≤ p.2)) →
      ∀ p ∈ selectTopP n xs, c ≤ p.2 := by
  intro n
  induction n with
  | zero => intro xs _ p hp; simp [selectTopP] at hp
  | succ n ih =>
    intro xs hc p hp
    cases xs with
    | nil => simp [selectTopP] at hp
    | cons x txs =>
      have hpos : 0 < (x :: txs).countP (fun p => decide (c ≤ p.2)) := by omega
      obtain ⟨q, hq, hqc⟩ := List.countP_pos_iff.mp hpos
      have hbge : c ≤ (maxPair x txs).2 :=
        le_trans (of_decide_eq_true hqc) (maxPair_ge x txs q hq)
      simp only [selectTopP, List.mem_cons] at hp
      rcases hp with hp | hp
      · exact hp ▸ hbge
      · have hperm := removePair_perm _ _ (maxPair_mem x txs)
        have hcount : (x :: txs).countP (fun p => decide (c ≤ p.2)) =
            (removePair (x :: txs) (maxPair x txs)).countP
              (fun p => decide (c ≤ p.2)) + 1 := by
          rw [hperm.countP_eq]
          rw [List.countP_cons]
          simp [hbge]
        exact ih _ (by omega) p hp

theorem selectTopP_dominates :
    ∀ (n : ℕ) (xs : List (ℕ × ℚ)) (p q : ℕ × ℚ),
      p ∈ selectTopP n xs → q ∈ xs → q ∉ selectTopP n xs → q.2 ≤ p.2 := by
  intro n
  induction n with
  | zero => intro xs p q hp _ _; simp [selectTopP] at hp
  | succ n ih =>
    intro xs p q hp hq hqn
    cases xs with
    | nil => simp at hq
    | cons x txs =>
      simp only [selectTopP, List.mem_cons] at hp hqn
      push_neg at hqn
      rcases hp with hp | hp
      · exact hp ▸ maxPair_ge x txs q hq
      · exact ih _ p q hp (mem_removePair _ _ _ hq hqn.1) hqn.2

/-! Small `getD` utilities. -/

theorem getD_of_length_le {α : Type} (l : List α) (d : α) (p : ℕ)
    (h : l.length ≤ p) : l.getD p d = d := by
  rw [List.getD_eq_getElem?_getD, List.getElem?_eq_none h]
  rfl

theorem getD_mem {α : Type} (l : List α) (d : α) (p : ℕ) (h : p < l.length) :
    l.getD p d ∈ l := by
  rw [List.getD_eq_getElem?_getD, List.getElem?_eq_getElem h]
  exact List.getElem_mem h

theorem map_range_getD {α : Type} (L : ℕ) (f : ℕ → α) (d : α) (p : ℕ)
    (hp : p < L) : ((List.range L).map f).getD p d = f p := by
  rw [List.getD_eq_getElem?_getD, List.getElem?_map, List.getElem?_range hp]
  rfl

/-! Facts about `topkIndices`. -/

theorem topkIndices_pair (n : ℕ) (xs : List ℚ) (i : ℕ)
    (hi : i ∈ topkIndices n xs) :
    ∃ pr ∈ selectTopP n xs.enum, pr.1 = i ∧ pr ∈ xs.enum := by
  obtain ⟨pr, hpr, hfst⟩ := List.mem_map.mp hi
  exact ⟨pr, hpr, hfst, (selectTopP_subperm n xs.enum).subset hpr⟩

theorem topkIndices_lt (n : ℕ) (xs : List ℚ) (i : ℕ)
    (hi : i ∈ topkIndices n xs) : i < xs.length := by
  obtain ⟨⟨j, v⟩, _, hfst, henum⟩ := topkIndices_pair n xs i hi
  exact hfst ▸ (List.mem_enum henum).1

theorem topkIndices_nodup (n : ℕ) (xs : List ℚ) : (topkIndices n xs).Nodup := by
  obtain ⟨l, hperm, hsub⟩ := selectTopP_subperm n xs.enum
  have hmapsub : (topkIndices n xs).Subperm (xs.enum.map Prod.fst) :=
    ⟨l.map Prod.fst, hperm.map _, hsub.map _⟩
  obtain ⟨l', hperm', hsub'⟩ := hmapsub
  have hnr : (xs.enum.map Prod.fst).Nodup := by
    rw [List.enum_map_fst]
    exact List.nodup_range _
  exact (hnr.sublist hsub').perm hperm'

theorem length_topkIndices (n : ℕ) (xs : List ℚ) :
    (topkIndices n xs).length = min n xs.length := by
  unfold topkIndices
  rw [List.length_map, length_selectTopP, List.enum_length]

theorem topkIndices_getD_ge (c : ℚ) (n : ℕ) (xs : List ℚ)
    (hc : n ≤ xs.countP (fun v => decide (c ≤ v))) (i : ℕ)
    (hi : i ∈ topkIndices n xs) : c ≤ xs.getD i 0 := by
  have hcount : xs.enum.countP (fun p => decide (c ≤ p.2)) =
      xs.countP (fun v => decide (c ≤ v)) := by
    conv_rhs => rw [← List.enum_map_snd xs]
    rw [List.countP_map]
    rfl
  obtain ⟨⟨j, v⟩, hsel, hfst, henum⟩ := topkIndices_pair n xs i hi
  have hcv : c ≤ v := selectTopP_threshold c n xs.enum (by omega) _ hsel
  obtain ⟨hjlt, hve⟩ := List.mem_enum henum
  subst hfst
  rw [List.getD_eq_getElem?_getD, List.getElem?_eq_getElem hjlt]
  exact hve ▸ hcv

/-- Counting members of a duplicate-free index list inside `List.range`. -/
theorem countP_range_mem (sel : List ℕ) (N : ℕ) (hnd : sel.Nodup)
    (hsub : ∀ i ∈ sel, i < N) :
    (List.range N).countP (fun j => decide (j ∈ sel)) = sel.length := by
  rw [List.countP_eq_length_filter]
  have hfn : ((List.range N).filter (fun j => decide (j ∈ sel))).Nodup :=
    (List.nodup_range N).filter _
  have hsub1 : ((List.range N).filter (fun j => decide (j ∈ sel))).Subperm sel := by
    refine hfn.subperm ?_
    intro a ha
    exact of_decide_eq_true (List.mem_filter.mp ha).2
  have hsub2 : sel.Subperm ((List.range N).filter (fun j => decide (j ∈ sel))) := by
    refine hnd.subperm ?_
    intro a ha
    exact List.mem_filter.mpr ⟨List.mem_range.mpr (hsub a ha), decide_eq_true ha⟩
  exact (hsub1.antisymm hsub2).length_eq

/-- The filled score list has nonnegative entries exactly at the flagged
positions (real scores are nonnegative, `negInf` is negative). -/
theorem scoreFill_countP (flag : List Bool) (score : List ℚ)
    (hlen : score.length = flag.length) (hpos : ∀ s ∈ score, 0 ≤ s) :
    (scoreFill flag score).countP (fun v => decide (0 ≤ v)) =
      flag.countP (fun b => b) := by
  induction flag generalizing score with
  | nil => simp [scoreFill]
  | cons f ft ih =>
    cases score with
    | nil => simp at hlen
    | cons s ts =>
      simp only [List.length_cons] at hlen
      have hs : (0 : ℚ) ≤ s := hpos s (List.mem_cons_self s ts)
      have hts : ∀ x ∈ ts, (0 : ℚ) ≤ x :=
        fun x hx => hpos x (List.mem_cons_of_mem _ hx)
      simp only [scoreFill, List.zipWith_cons_cons, List.countP_cons]
      rw [show (List.zipWith (fun f s => if f then s else negInf) ft ts) =
        scoreFill ft ts from rfl, ih ts (by omega) hts]
      cases f with
      | true => simp [hs]
      | false =>
        have : ¬ (0 : ℚ) ≤ negInf := by norm_num [negInf]
        simp [this]

/-- Count of mask ids written by the re-masking `masked_fill` (line 355), when
the filled sequence holds no mask id. -/
theorem countP_mask_zipWith (flag : List Bool) (xs : List ℕ)
    (hlen : xs.length = flag.length) (hx : ∀ v ∈ xs, v ≠ maskTokenId) :
    (List.zipWith (fun f v => if f then maskTokenId else v) flag xs).countP
        (fun v => decide (v = maskTokenId)) =
      flag.countP (fun b => b) := by
  induction flag generalizing xs with
  | nil => simp
  | cons f ft ih =>
    cases xs with
    | nil => simp at hlen
    | cons x tx =>
      simp only [List.length_cons] at hlen
      have hx0 : x ≠ maskTokenId := hx x (List.mem_cons_self x tx)
      have htx : ∀ v ∈ tx, v ≠ maskTokenId :=
        fun v hv => hx v (List.mem_cons_of_mem _ hv)
      simp only [List.zipWith_cons_cons, List.countP_cons]
      rw [ih tx (by omega) htx]
      cases f with
      | true => simp
      | false => simp [hx0]

/-! Single-step lemmas for the scheduler. -/

theorem levelStep_zero_eq (sampled : List ℕ) (score : List ℚ) (st : LState) :
    levelStep sampled score 0 st = ⟨torchWhere st.flag sampled st.seq, st.flag⟩ := by
  simp [levelStep]

theorem levelStep_pos_eq (sampled : List ℕ) (score : List ℚ) (n : ℕ)
    (hn : n ≠ 0) (st : LState) :
    levelStep sampled score n st =
      ⟨List.zipWith (fun f v => if f then maskTokenId else v)
          ((List.range st.flag.length).map
            (fun j => decide (j ∈ topkIndices n (scoreFill st.flag score))))
          (torchWhere st.flag sampled st.seq),
        (List.range st.flag.length).map
          (fun j => decide (j ∈ topkIndices n (scoreFill st.flag score)))⟩ := by
  simp [levelStep, hn]

theorem fill_getD {N : ℕ} {st : LState} {sampled : List ℕ} {score : List ℚ}
    (hok : StOk N st) (horc : OracleOk N sampled score) (p : ℕ) :
    (torchWhere st.flag sampled st.seq).getD p 0 =
      if st.flag.getD p false then sampled.getD p 0 else st.seq.getD p 0 :=
  torchWhere_getD st.flag sampled st.seq 0
    (horc.1.trans hok.2.1.symm) (hok.1.trans hok.2.1.symm) p

theorem fill_length {N : ℕ} {st : LState} {sampled : List ℕ} {score : List ℚ}
    (hok : StOk N st) (horc : OracleOk N sampled score) :
    (torchWhere st.flag sampled st.seq).length = N :=
  (length_torchWhere st.flag sampled st.seq
    (horc.1.trans hok.2.1.symm) (hok.1.trans hok.2.1.symm)).trans hok.2.1

theorem maskFill_getD (m : List Bool) (xs : List ℕ) (h : xs.length = m.length)
    (p : ℕ) (hp : p < m.length) :
    (List.zipWith (fun f v => if f then maskTokenId else v) m xs).getD p 0 =
      if m.getD p false then maskTokenId else xs.getD p 0 :=
  zipWith_bool_getD (fun f v => if f then maskTokenId else v) m xs 0 h p hp

theorem scoreFill_getD (m : List Bool) (xs : List ℚ) (h : xs.length = m.length)
    (p : ℕ) (hp : p < m.length) :
    (scoreFill m xs).getD p 0 =
      if m.getD p false then xs.getD p 0 else negInf :=
  zipWith_bool_getD (fun f s => if f then s else negInf) m xs 0 h p hp

theorem fill_no_maskId {N : ℕ} {st : LState} {sampled : List ℕ} {score : List ℚ}
    (hok : StOk N st) (horc : OracleOk N sampled score) (p : ℕ) :
    (torchWhere st.flag sampled st.seq).getD p 0 ≠ maskTokenId := by
  by_cases hp : p < N
  · rw [fill_getD hok horc p]
    by_cases hf : st.flag.getD p false
    · rw [if_pos hf]
      have hmem : sampled.getD p 0 ∈ sampled :=
        getD_mem sampled 0 p (by rw [horc.1]; exact hp)
      exact Nat.ne_of_lt (horc.2.2.1 _ hmem)
    · rw [if_neg hf]
      intro hmask
      exact hf (hok.2.2.1 p hp hmask)
  · rw [getD_of_length_le _ _ p (by rw [fill_length hok horc]; omega)]
    simp [maskTokenId]

theorem fill_no_maskId_mem {N : ℕ} {st : LState} {sampled : List ℕ}
    {score : List ℚ} (hok : StOk N st) (horc : OracleOk N sampled score) :
    ∀ v ∈ torchWhere st.flag sampled st.seq, v ≠ maskTokenId := by
  intro v hv
  obtain ⟨p, hp, he⟩ := List.mem_iff_getElem.mp hv
  have : (torchWhere st.flag sampled st.seq).getD p 0 = v := by
    rw [List.getD_eq_getElem?_getD, List.getElem?_eq_getElem hp, Option.getD_some]
    exact he
  exact this ▸ fill_no_maskId hok horc p

theorem fill_le {N : ℕ} {st : LState} {sampled : List ℕ} {score : List ℚ}
    (hok : StOk N st) (horc : OracleOk N sampled score) :
    ∀ v ∈ torchWhere st.flag sampled st.seq, v ≤ maskTokenId := by
  intro v hv
  rcases mem_torchWhere hv with h | h
  · exact le_of_lt (horc.2.2.1 v h)
  · exact hok.2.2.2 v h

theorem levelStep_StOk {N : ℕ} {st : LState} {sampled : List ℕ}
    {score : List ℚ} (hok : StOk N st) (horc : OracleOk N sampled score)
    (n : ℕ) : StOk N (levelStep sampled score n st) := by
  by_cases hn : n = 0
  · subst hn
    rw [levelStep_zero_eq]
    exact ⟨fill_length hok horc, hok.2.1,
      fun p _ hmask => absurd hmask (fill_no_maskId hok horc p),
      fill_le hok horc⟩
  · rw [levelStep_pos_eq sampled score n hn st]
    have hflen : ((List.range st.flag.length).map
        (fun j => decide (j ∈ topkIndices n (scoreFill st.flag score)))).length = N := by
      rw [List.length_map, List.length_range, hok.2.1]
    refine ⟨?_, hflen, ?_, ?_⟩
    · rw [List.length_zipWith, hflen, fill_length hok horc]
      omega
    · intro p hp hmask
      dsimp only at hmask ⊢
      have hzip := maskFill_getD
        ((List.range st.flag.length).map
          (fun j => decide (j ∈ topkIndices n (scoreFill st.flag score))))
        (torchWhere st.flag sampled st.seq)
        ((fill_length hok horc).trans hflen.symm) p
        (by rw [hflen]; exact hp)
      rw [hzip] at hmask
      by_contra hflag
      rw [if_neg (by simpa using hflag)] at hmask
      exact fill_no_maskId hok horc p hmask
    · intro v hv
      obtain ⟨f, x, hx, he⟩ := mem_zipWith_bool _ hv
      subst he
      cases f with
      | true => simp
      | false => simpa using fill_le hok horc x hx

theorem levelStep_flagCount_zero {st : LState} (sampled : List ℕ)
    (score : List ℚ) : flagCount (levelStep sampled score 0 st) = flagCount st := by
  rw [levelStep_zero_eq]
  rfl

theorem levelStep_flagCount_pos {N : ℕ} {st : LState} {sampled : List ℕ}
    {score : List ℚ} (hok : StOk N st) (horc : OracleOk N sampled score)
    {n : ℕ} (hn : n ≠ 0) (hle : n ≤ N) :
    flagCount (levelStep sampled score n st) = n := by
  rw [levelStep_pos_eq sampled score n hn st]
  unfold flagCount
  have hnodup := topkIndices_nodup n (scoreFill st.flag score)
  have hfslen : (scoreFill st.flag score).length = N := by
    unfold scoreFill
    rw [List.length_zipWith, hok.2.1, horc.2.1]
    omega
  have hbound : ∀ i ∈ topkIndices n (scoreFill st.flag score), i < N :=
    fun i hi => hfslen ▸ topkIndices_lt n _ i hi
  show ((List.range st.flag.length).map
      (fun j => decide (j ∈ topkIndices n (scoreFill st.flag score)))).countP
      (fun b => b) = n
  rw [List.countP_map, hok.2.1]
  have := countP_range_mem (topkIndices n (scoreFill st.flag score)) N hnodup hbound
  calc (List.range N).countP
        ((fun b => b) ∘ fun j => decide (j ∈ topkIndices n (scoreFill st.flag score)))
      = (topkIndices n (scoreFill st.flag score)).length := this
    _ = n := by rw [length_topkIndices, hfslen]; omega

theorem levelStep_maskCount {N : ℕ} {st : LState} {sampled : List ℕ}
    {score : List ℚ} (hok : StOk N st) (horc : OracleOk N sampled score)
    {n : ℕ} (hle : n ≤ N) :
    countMaskId (levelStep sampled score n st) = n := by
  by_cases hn : n = 0
  · subst hn
    rw [levelStep_zero_eq]
    unfold countMaskId
    rw [List.countP_eq_zero]
    intro a ha
    simpa using fill_no_maskId_mem hok horc a ha
  · unfold countMaskId
    rw [levelStep_pos_eq sampled score n hn st]
    dsimp only
    have hflen : ((List.range st.flag.length).map
        (fun j => decide (j ∈ topkIndices n (scoreFill st.flag score)))).length = N := by
      rw [List.length_map, List.length_range, hok.2.1]
    have hcnt := countP_mask_zipWith
      ((List.range st.flag.length).map
        (fun j => decide (j ∈ topkIndices n (scoreFill st.flag score))))
      (torchWhere st.flag sampled st.seq)
      ((fill_length hok horc).trans hflen.symm)
      (fill_no_maskId_mem hok horc)
    rw [hcnt]
    have hfc := levelStep_flagCount_pos hok horc hn hle
    rw [levelStep_pos_eq sampled score n hn st] at hfc
    exact hfc

theorem levelStep_flag_subset {N : ℕ} {st : LState} {sampled : List ℕ}
    {score : List ℚ} (hok : StOk N st) (horc : OracleOk N sampled score)
    {n : ℕ} (hn : n ≤ flagCount st) (p : ℕ)
    (hp : (levelStep sampled score n st).flag.getD p false = true) :
    st.flag.getD p false = true := by
  by_cases hn0 : n = 0
  · subst hn0
    rw [levelStep_zero_eq] at hp
    exact hp
  · rw [levelStep_pos_eq sampled score n hn0 st] at hp
    have hplt : p < st.flag.length := by
      by_contra hge
      rw [getD_of_length_le _ _ p
        (by rw [List.length_map, List.length_range]; omega)] at hp
      exact Bool.false_ne_true hp
    rw [map_range_getD _ _ _ p hplt] at hp
    have hpmem : p ∈ topkIndices n (scoreFill st.flag score) :=
      of_decide_eq_true hp
    have hfslen : (scoreFill st.flag score).length = N := by
      unfold scoreFill
      rw [List.length_zipWith, hok.2.1, horc.2.1]
      omega
    have hcnt : n ≤ (scoreFill st.flag score).countP (fun v => decide (0 ≤ v)) := by
      rw [scoreFill_countP st.flag score (horc.2.1.trans hok.2.1.symm) horc.2.2.2]
      exact hn
    have hge := topkIndices_getD_ge 0 n (scoreFill st.flag score) hcnt p hpmem
    rw [scoreFill_getD st.flag score (horc.2.1.trans hok.2.1.symm) p hplt] at hge
    by_contra hflag
    rw [if_neg (by simpa using hflag)] at hge
    norm_num [negInf] at hge

/-! Lemmas about the full inner loop. -/

/-- Oracle bounds available at every step of a level. -/
def OracleStream (N : ℕ) (sampledO : ℕ → List ℕ) (scoreO : ℕ → List ℚ) : Prop :=
  ∀ i, OracleOk N (sampledO i) (scoreO i)

theorem flagCount_le {N : ℕ} {st : LState} (hok : StOk N st) :
    flagCount st ≤ N := by
  unfold flagCount
  calc st.flag.countP (fun b => b) ≤ st.flag.length := List.countP_le_length _
    _ = N := hok.2.1

theorem decodeAux_StOk {N : ℕ} {sampledO : ℕ → List ℕ} {scoreO : ℕ → List ℚ}
    (hstr : OracleStream N sampledO scoreO) :
    ∀ (sched : List ℕ) (i0 : ℕ) (st : LState), StOk N st →
      StOk N (decodeAux sampledO scoreO sched i0 st) := by
  intro sched
  induction sched with
  | nil => intro i0 st hok; exact hok
  | cons n ns ih =>
    intro i0 st hok
    exact ih (i0 + 1) _ (levelStep_StOk hok (hstr i0) n)

theorem decodeAux_append (sampledO : ℕ → List ℕ) (scoreO : ℕ → List ℚ)
    (l1 l2 : List ℕ) :
    ∀ (i0 : ℕ) (st : LState),
      decodeAux sampledO scoreO (l1 ++ l2) i0 st =
        decodeAux sampledO scoreO l2 (i0 + l1.length)
          (decodeAux sampledO scoreO l1 i0 st) := by
  induction l1 with
  | nil => intro i0 st; simp [decodeAux]
  | cons n ns ih =>
    intro i0 st
    have hL : decodeAux sampledO scoreO ((n :: ns) ++ l2) i0 st =
        decodeAux sampledO scoreO (ns ++ l2) (i0 + 1)
          (levelStep (sampledO i0) (scoreO i0) n st) := rfl
    have hR : decodeAux sampledO scoreO (n :: ns) i0 st =
        decodeAux sampledO scoreO ns (i0 + 1)
          (levelStep (sampledO i0) (scoreO i0) n st) := rfl
    rw [hL, hR, ih (i0 + 1), List.length_cons,
      show i0 + (ns.length + 1) = i0 + 1 + ns.length from by omega]

theorem feas_step {N : ℕ} {st : LState} {sampled : List ℕ} {score : List ℚ}
    {n : ℕ} {ns : List ℕ} (hok : StOk N st) (horc : OracleOk N sampled score)
    (hfeas : feas (flagCount st) (n :: ns)) :
    feas (flagCount (levelStep sampled score n st)) ns := by
  obtain ⟨hle, hrest⟩ := hfeas
  by_cases hn : n = 0
  · subst hn
    rw [levelStep_flagCount_zero]
    simpa using hrest
  · rw [levelStep_flagCount_pos hok horc hn (le_trans hle (flagCount_le hok))]
    rw [if_neg hn] at hrest
    exact hrest

theorem decodeAux_take_feas {N : ℕ} {sampledO : ℕ → List ℕ}
    {scoreO : ℕ → List ℚ} (hstr : OracleStream N sampledO scoreO) :
    ∀ (sched : List ℕ) (st : LState) (i0 i : ℕ), StOk N st →
      feas (flagCount st) sched →
      feas (flagCount (decodeAux sampledO scoreO (sched.take i) i0 st))
        (sched.drop i) := by
  intro sched
  induction sched with
  | nil =>
    intro st i0 i hok hfeas
    simp [decodeAux, feas]
  | cons n ns ih =>
    intro st i0 i hok hfeas
    cases i with
    | zero => exact hfeas
    | succ i =>
      simp only [List.take_succ_cons, List.drop_succ_cons, decodeAux]
      exact ih _ (i0 + 1) i (levelStep_StOk hok (hstr i0) n)
        (feas_step hok (hstr i0) hfeas)

theorem take_succ_getD (sched : List ℕ) (i : ℕ) (hi : i < sched.length) :
    sched.take (i + 1) = sched.take i ++ [sched.getD i 0] := by
  rw [List.take_succ, List.getElem?_eq_getElem hi]
  rw [List.getD_eq_getElem?_getD, List.getElem?_eq_getElem hi]
  rfl

theorem drop_eq_getD_cons (sched : List ℕ) (i : ℕ) (hi : i < sched.length) :
    sched.drop i = sched.getD i 0 :: sched.drop (i + 1) := by
  rw [List.drop_eq_getElem_cons hi]
  rw [List.getD_eq_getElem?_getD, List.getElem?_eq_getElem hi]
  rfl

theorem decodeAux_take_succ {sampledO : ℕ → List ℕ} {scoreO : ℕ → List ℚ}
    (sched : List ℕ) (st : LState) (i : ℕ) (hi : i < sched.length) :
    decodeAux sampledO scoreO (sched.take (i + 1)) 0 st =
      levelStep (sampledO (sched.take i).length) (scoreO (sched.take i).length)
        (sched.getD i 0) (decodeAux sampledO scoreO (sched.take i) 0 st) := by
  rw [take_succ_getD sched i hi, decodeAux_append]
  simp [decodeAux]

theorem decode_take_subset {N : ℕ} {sampledO : ℕ → List ℕ}
    {scoreO : ℕ → List ℚ} (hstr : OracleStream N sampledO scoreO)
    (sched : List ℕ) (st : LState) (hok : StOk N st)
    (hfeas : feas (flagCount st) sched) (i : ℕ) (hi : i < sched.length)
    (p : ℕ)
    (hp : (decodeAux sampledO scoreO (sched.take (i + 1)) 0 st).flag.getD p false
      = true) :
    (decodeAux sampledO scoreO (sched.take i) 0 st).flag.getD p false = true := by
  rw [decodeAux_take_succ sched st i hi] at hp
  have hok' := decodeAux_StOk hstr (sched.take i) 0 st hok
  have hfeas' := decodeAux_take_feas hstr sched st 0 i hok hfeas
  rw [drop_eq_getD_cons sched i hi] at hfeas'
  exact levelStep_flag_subset hok' (hstr _) hfeas'.1 p hp

theorem decode_take_maskCount {N : ℕ} {sampledO : ℕ → List ℕ}
    {scoreO : ℕ → List ℚ} (hstr : OracleStream N sampledO scoreO)
    (sched : List ℕ) (st : LState) (hok : StOk N st)
    (hle : ∀ m ∈ sched, m ≤ N) (i : ℕ) (hi : i < sched.length) :
    countMaskId (decodeAux sampledO scoreO (sched.take (i + 1)) 0 st) =
      sched.getD i 0 := by
  rw [decodeAux_take_succ sched st i hi]
  have hok' := decodeAux_StOk hstr (sched.take i) 0 st hok
  exact levelStep_maskCount hok' (hstr _) (hle _ (getD_mem sched 0 i hi))

theorem decode_resolved {N : ℕ} {sampledO : ℕ → List ℕ}
    {scoreO : ℕ → List ℚ} (hstr : OracleStream N sampledO scoreO)
    (sched : List ℕ) (st : LState) (hok : StOk N st) (hne : sched ≠ [])
    (hlast : sched.getD (sched.length - 1) 0 = 0) (p : ℕ) :
    (decodeAux sampledO scoreO sched 0 st).seq.getD p 0 < maskTokenId := by
  have hlen : 0 < sched.length := List.length_pos.mpr hne
  have htklen : (sched.take (sched.length - 1)).length = sched.length - 1 := by
    rw [List.length_take]
    omega
  have hdecomp : sched = sched.take (sched.length - 1) ++ [sched.getD (sched.length - 1) 0] := by
    have := take_succ_getD sched (sched.length - 1) (by omega)
    rw [show sched.length - 1 + 1 = sched.length from by omega, List.take_length] at this
    exact this
  have hlast' : decodeAux sampledO scoreO sched 0 st =
      levelStep (sampledO (sched.length - 1)) (scoreO (sched.length - 1)) 0
        (decodeAux sampledO scoreO (sched.take (sched.length - 1)) 0 st) := by
    conv_lhs => rw [hdecomp]
    rw [decodeAux_append]
    have h1 : decodeAux sampledO scoreO [sched.getD (sched.length - 1) 0]
        (0 + (sched.take (sched.length - 1)).length)
        (decodeAux sampledO scoreO (sched.take (sched.length - 1)) 0 st) =
        levelStep (sampledO (0 + (sched.take (sched.length - 1)).length))
          (scoreO (0 + (sched.take (sched.length - 1)).length))
          (sched.getD (sched.length - 1) 0)
          (decodeAux sampledO scoreO (sched.take (sched.length - 1)) 0 st) := rfl
    rw [h1, hlast, htklen, Nat.zero_add]
  rw [hlast', levelStep_zero_eq]
  dsimp only
  have hok' := decodeAux_StOk hstr (sched.take (sched.length - 1)) 0 st hok
  have hne2 := fill_no_maskId hok' (hstr (sched.length - 1)) p
  by_cases hp : p < N
  · have hmem := getD_mem (torchWhere
      (decodeAux sampledO scoreO (sched.take (sched.length - 1)) 0 st).flag
      (sampledO (sched.length - 1))
      (decodeAux sampledO scoreO (sched.take (sched.length - 1)) 0 st).seq) 0 p
      (by rw [fill_length hok' (hstr _)]; exact hp)
    have hle := fill_le hok' (hstr _) _ hmem
    omega
  · rw [getD_of_length_le _ _ p (by rw [fill_length hok' (hstr _)]; omega)]
    simp [maskTokenId]

/-! Properties of the cosine schedule. -/

theorem schedSpec_le {S N : ℕ} {sched : List ℕ} (h : schedSpec S N sched) :
    ∀ m ∈ sched, m ≤ N := by
  intro m hm
  obtain ⟨j, hj, he⟩ := List.mem_iff_getElem.mp hm
  have hgetD : sched.getD j 0 = m := by
    rw [List.getD_eq_getElem?_getD, List.getElem?_eq_getElem hj, Option.getD_some]
    exact he
  have hjS : j < S := h.1 ▸ hj
  have := h.2 j hjS
  rw [hgetD] at this
  have hcos : Real.cos (((j : ℝ) + 1) / (S : ℝ) * (Real.pi / 2)) * (N : ℝ) ≤ (N : ℝ) :=
    mul_le_of_le_one_left (by positivity) (Real.cos_le_one _)
  have hfl : ((m : ℤ) : ℤ) ≤ (N : ℤ) := by
    rw [this]
    calc ⌊Real.cos (((j : ℝ) + 1) / (S : ℝ) * (Real.pi / 2)) * (N : ℝ)⌋
        ≤ ⌊(N : ℝ)⌋ := Int.floor_le_floor hcos
      _ = (N : ℤ) := Int.floor_natCast N
  exact_mod_cast hfl

theorem schedSpec_last {S N : ℕ} {sched : List ℕ} (h : schedSpec S N sched)
    (hS : 1 ≤ S) : sched.getD (S - 1) 0 = 0 := by
  have hlt : S - 1 < S := by omega
  have := h.2 (S - 1) hlt
  have hcast : ((S - 1 : ℕ) : ℝ) + 1 = (S : ℝ) := by
    rw [Nat.cast_sub hS]
    simp
  have hSne : (S : ℝ) ≠ 0 := Nat.cast_ne_zero.mpr (by omega)
  rw [hcast, div_self hSne, one_mul, Real.cos_pi_div_two, zero_mul,
    Int.floor_zero] at this
  exact_mod_cast this

theorem schedSpec_antitone {S N : ℕ} {sched : List ℕ} (h : schedSpec S N sched)
    (i j : ℕ) (hij : i ≤ j) (hj : j < S) :
    sched.getD j 0 ≤ sched.getD i 0 := by
  have hi : i < S := by omega
  have hSpos : (0 : ℝ) < (S : ℝ) := by exact_mod_cast (show 0 < S by omega)
  set x := ((i : ℝ) + 1) / (S : ℝ) * (Real.pi / 2) with hx
  set y := ((j : ℝ) + 1) / (S : ℝ) * (Real.pi / 2) with hy
  have hx0 : 0 ≤ x := by
    apply mul_nonneg
    · positivity
    · positivity
  have hnum : ((i : ℝ) + 1) ≤ ((j : ℝ) + 1) :=
    add_le_add_right (Nat.cast_le.mpr hij) 1
  have hxy : x ≤ y :=
    mul_le_mul_of_nonneg_right ((div_le_div_iff_of_pos_right hSpos).mpr hnum)
      (by positivity)
  have hypi : y ≤ Real.pi := by
    have h1 : ((j : ℝ) + 1) / (S : ℝ) ≤ 1 := by
      rw [div_le_one hSpos]
      exact_mod_cast Nat.succ_le_of_lt hj
    calc y ≤ 1 * (Real.pi / 2) :=
          mul_le_mul_of_nonneg_right h1 (by positivity)
      _ ≤ Real.pi := by
          rw [one_mul]
          linarith [Real.pi_nonneg]
  have hcos : Real.cos y ≤ Real.cos x :=
    Real.cos_le_cos_of_nonneg_of_le_pi hx0 hypi hxy
  have hmul : Real.cos y * (N : ℝ) ≤ Real.cos x * (N : ℝ) :=
    mul_le_mul_of_nonneg_right hcos (by positivity)
  have := Int.floor_le_floor hmul
  rw [← h.2 i hi, ← h.2 j hj] at this
  exact_mod_cast this

theorem feas_of_pairwise :
    ∀ (sched : List ℕ) (c : ℕ), (∀ m ∈ sched, m ≤ c) →
      sched.Pairwise (fun a b => b ≤ a) → feas c sched := by
  intro sched
  induction sched with
  | nil => intro c _ _; trivial
  | cons m ms ih =>
    intro c hle hpw
    refine ⟨hle m (List.mem_cons_self m ms), ?_⟩
    rcases List.pairwise_cons.mp hpw with ⟨hhead, htail⟩
    by_cases hm : m = 0
    · rw [if_pos hm]
      exact ih c (fun x hx => hle x (List.mem_cons_of_mem _ hx)) htail
    · rw [if_neg hm]
      exact ih m hhead htail

theorem schedSpec_feas {S N : ℕ} {sched : List ℕ} (h : schedSpec S N sched)
    (c : ℕ) (hc : N ≤ c) : feas c sched := by
  refine feas_of_pairwise sched c (fun m hm => le_trans (schedSpec_le h m hm) hc) ?_
  rw [List.pairwise_iff_get]
  intro i j hij
  have hgi : sched.get i = sched.getD i.1 0 := by
    rw [List.getD_eq_getElem?_getD, List.getElem?_eq_getElem i.2]
    rfl
  have hgj : sched.get j = sched.getD j.1 0 := by
    rw [List.getD_eq_getElem?_getD, List.getElem?_eq_getElem j.2]
    rfl
  rw [hgi, hgj]
  exact schedSpec_antitone h i.1 j.1 (le_of_lt hij) (h.1 ▸ j.2)

/-! Training masker lemmas. -/

theorem levelMaskBits_prompt (t M : ℕ) (r : ℚ) (perm : List ℕ) (j : ℕ)
    (hj : j < t) : (levelMaskBits t M r perm).getD j false = false := by
  unfold levelMaskBits
  rw [List.getD_append _ _ _ j (by simpa using hj)]
  rw [List.getD_eq_getElem?_getD, List.getElem?_replicate, if_pos hj]
  rfl

theorem levelMaskBits_length (t M : ℕ) (r : ℚ) (perm : List ℕ) :
    (levelMaskBits t M r perm).length = t + perm.length := by
  simp [levelMaskBits]

theorem levelMask_prompt (code : List ℕ) (t : ℕ) (r : ℚ) (perm : List ℕ)
    (hlen : perm.length = code.length - t) (ht : t ≤ code.length) (j : ℕ)
    (hj : j < t) :
    ((levelMask code t r perm).1).getD j 0 = code.getD j 0 := by
  unfold levelMask
  have hml : (levelMaskBits t (code.length - t) r perm).length = code.length := by
    rw [levelMaskBits_length, hlen]
    omega
  rw [zipWith_bool_getD (fun m c => if m then maskTokenId else c)
    (levelMaskBits t (code.length - t) r perm) code 0 (by rw [hml]) j (by omega)]
  rw [levelMaskBits_prompt t (code.length - t) r perm j hj]
  rfl

theorem levelMask_labels_prompt (code : List ℕ) (t : ℕ) (r : ℚ) (perm : List ℕ)
    (hlen : perm.length = code.length - t) (ht : t ≤ code.length) (j : ℕ)
    (hj : j < t) :
    ((levelMask code t r perm).2).getD j 0 = ignoreIndex := by
  unfold levelMask
  have hml : (levelMaskBits t (code.length - t) r perm).length = code.length := by
    rw [levelMaskBits_length, hlen]
    omega
  rw [zipWith_bool_getD (fun m c => if m then c else ignoreIndex)
    (levelMaskBits t (code.length - t) r perm) code 0 (by rw [hml]) j (by omega)]
  rw [levelMaskBits_prompt t (code.length - t) r perm j hj]
  rfl

theorem fineMask_prompt (code : List ℕ) (t j : ℕ) (hj : j < t)
    (hjc : j < code.length) :
    (fineMask code t).getD j 0 = code.getD j 0 := by
  unfold fineMask
  rw [List.getD_append _ _ _ j (by rw [List.length_take]; omega)]
  rw [List.getD_eq_getElem?_getD, List.getElem?_take, if_pos hj,
    List.getD_eq_getElem?_getD]

theorem fineMask_upper (code : List ℕ) (t j : ℕ) (hj : t ≤ j)
    (hjc : j < code.length) :
    (fineMask code t).getD j 0 = maskUpperLevel := by
  unfold fineMask
  have htl : (code.take t).length = min t code.length := List.length_take t code
  rw [List.getD_append_right _ _ _ j (by omega)]
  rw [List.getD_eq_getElem?_getD, List.getElem?_replicate, if_pos (by omega)]
  rfl

/-- Count of integers below a rational threshold among `0 .. M-1`. -/
theorem countP_range_lt_rat (M : ℕ) (c : ℚ) :
    (List.range M).countP (fun v : ℕ => decide ((v : ℚ) < c)) =
      min M (Int.ceil c).toNat := by
  induction M with
  | zero => simp
  | succ M ih =>
    rw [List.range_succ, List.countP_append, ih]
    by_cases h : ((M : ℚ) < c)
    · have h1 : (M : ℤ) < ⌈c⌉ := Int.lt_ceil.mpr (by exact_mod_cast h)
      have h2 : M + 1 ≤ ⌈c⌉.toNat := by
        rw [Int.le_toNat (by omega)]
        exact_mod_cast h1
      simp only [List.countP_cons, List.countP_nil]
      rw [if_pos (by exact decide_eq_true h)]
      omega
    · have h1 : ⌈c⌉ ≤ (M : ℤ) := le_of_not_lt (fun hc => h (by exact_mod_cast Int.lt_ceil.mp hc))
      have h2 : ⌈c⌉.toNat ≤ M := Int.toNat_le.mpr h1
      simp only [List.countP_cons, List.countP_nil]
      rw [if_neg (by simpa using h)]
      omega

/-- Number of mask bits set by `_level_mask`: every continuation position whose
permutation rank lies strictly below `max 1 (r * M)`. -/
theorem levelMaskBits_count (t M : ℕ) (r : ℚ) (perm : List ℕ)
    (hperm : perm.Perm (List.range M)) (hM : 1 ≤ M) (hr1 : r ≤ 1) :
    (levelMaskBits t M r perm).countP (fun b => b) =
      max 1 (Int.ceil (r * (M : ℚ))).toNat := by
  unfold levelMaskBits
  rw [List.countP_append]
  have hrep : (List.replicate t false).countP (fun b => b) = 0 := by
    rw [List.countP_eq_zero]
    intro a ha
    simp [List.eq_of_mem_replicate ha]
  rw [hrep, List.countP_map]
  have hcomp : (List.countP
      ((fun b => b) ∘ fun v : ℕ => decide ((v : ℚ) < max 1 (r * (M : ℚ)))) perm) =
      (List.countP (fun v : ℕ => decide ((v : ℚ) < max 1 (r * (M : ℚ))))
        (List.range M)) :=
    hperm.countP_eq _
  rw [hcomp, countP_range_lt_rat]
  rcases le_total (r * (M : ℚ)) 1 with h | h
  · rw [max_eq_left h]
    have hc1 : (⌈(1 : ℚ)⌉ : ℤ) = 1 := by norm_num
    rw [hc1]
    have hle : (⌈r * (M : ℚ)⌉ : ℤ) ≤ 1 := by
      calc ⌈r * (M : ℚ)⌉ ≤ ⌈(1 : ℚ)⌉ := Int.ceil_le_ceil h
        _ = 1 := hc1
    have : (⌈r * (M : ℚ)⌉).toNat ≤ 1 := Int.toNat_le.mpr (by exact_mod_cast hle)
    omega
  · rw [max_eq_right h]
    have hpos : 0 < ⌈r * (M : ℚ)⌉ := Int.ceil_pos.mpr (by linarith)
    have hmle : r * (M : ℚ) ≤ (M : ℚ) :=
      mul_le_of_le_one_left (by positivity) hr1
    have hceil : ⌈r * (M : ℚ)⌉ ≤ (M : ℤ) := by
      calc ⌈r * (M : ℚ)⌉ ≤ ⌈((M : ℕ) : ℚ)⌉ := Int.ceil_le_ceil hmle
        _ = (M : ℤ) := Int.ceil_natCast M
    have h1 : (⌈r * (M : ℚ)⌉).toNat ≤ M := Int.toNat_le.mpr hceil
    have h2 : 1 ≤ (⌈r * (M : ℚ)⌉).toNat := by
      rw [Int.le_toNat (by omega)]
      omega
    omega

/-- The masked row built by `_level_mask` holds the mask id exactly as often as
the mask has bits set (the input row holding no mask id). -/
theorem levelMask_count (code : List ℕ) (t : ℕ) (r : ℚ) (perm : List ℕ)
    (hperm : perm.Perm (List.range (code.length - t))) (ht : t < code.length)
    (hr1 : r ≤ 1) (hcode : ∀ v ∈ code, v ≠ maskTokenId) :
    ((levelMask code t r perm).1).countP (fun v => decide (v = maskTokenId)) =
      max 1 (Int.ceil (r * ((code.length - t : ℕ) : ℚ))).toNat := by
  unfold levelMask
  have hlenp : perm.length = code.length - t := by
    rw [hperm.length_eq, List.length_range]
  have hml : code.length = (levelMaskBits t (code.length - t) r perm).length := by
    rw [levelMaskBits_length, hlenp]
    omega
  rw [countP_mask_zipWith (levelMaskBits t (code.length - t) r perm) code hml hcode]
  exact levelMaskBits_count t (code.length - t) r perm hperm (by omega) hr1

/-! Lemmas about the `maskLevelRow` dispatch of `_masking`. -/

theorem maskLevelRow_lower (q t : ℕ) (r : ℚ) (perm : List ℕ) (i : ℕ)
    (row : List ℕ) (hi : i < q) :
    maskLevelRow q t r perm i row = (row, row) := by
  unfold maskLevelRow
  rw [if_neg (by omega), if_neg (by omega)]

theorem maskLevelRow_at (q t : ℕ) (r : ℚ) (perm : List ℕ) (row : List ℕ) :
    maskLevelRow q t r perm q row = ((levelMask row t r perm).1, row) := by
  unfold maskLevelRow
  rw [if_pos rfl]

theorem maskLevelRow_upper (q t : ℕ) (r : ℚ) (perm : List ℕ) (i : ℕ)
    (row : List ℕ) (hi : q < i) :
    maskLevelRow q t r perm i row = (fineMask row t, fineMask row t) := by
  unfold maskLevelRow
  rw [if_neg (by omega), if_pos hi]

/-! `top_k` lemmas. -/

theorem top_k_getD (thres : ℚ) (logits : List ℚ) (i : ℕ)
    (hi : i < logits.length) :
    (top_k thres logits).getD i none =
      if i ∈ topkIndices ((Int.ceil ((1 - thres) * (logits.length : ℚ))).toNat)
          logits
      then some (logits.getD i 0) else none := by
  unfold top_k
  rw [List.getD_eq_getElem?_getD, List.getElem?_map, List.getElem?_enum,
    List.getElem?_eq_getElem hi]
  rw [List.getD_eq_getElem?_getD, List.getElem?_eq_getElem hi]
  rfl

theorem top_k_countP (thres : ℚ) (logits : List ℚ) :
    (top_k thres logits).countP (fun o => o.isSome) =
      min ((Int.ceil ((1 - thres) * (logits.length : ℚ))).toNat)
        logits.length := by
  unfold top_k
  rw [List.countP_map]
  have hcongr : List.countP
      ((fun o => o.isSome) ∘ fun p : ℕ × ℚ =>
        if p.1 ∈ topkIndices ((Int.ceil ((1 - thres) * (logits.length : ℚ))).toNat)
            logits then some p.2 else none) logits.enum =
      List.countP (fun p : ℕ × ℚ =>
        decide (p.1 ∈ topkIndices
          ((Int.ceil ((1 - thres) * (logits.length : ℚ))).toNat) logits))
        logits.enum := by
    apply List.countP_congr
    intro x _
    by_cases hx : x.1 ∈ topkIndices
        ((Int.ceil ((1 - thres) * (logits.length : ℚ))).toNat) logits
    · simp [hx]
    · simp [hx]
  rw [hcongr]
  have hfst : List.countP (fun p : ℕ × ℚ =>
      decide (p.1 ∈ topkIndices
        ((Int.ceil ((1 - thres) * (logits.length : ℚ))).toNat) logits))
      logits.enum =
      List.countP (fun j =>
        decide (j ∈ topkIndices
          ((Int.ceil ((1 - thres) * (logits.length : ℚ))).toNat) logits))
        (logits.enum.map Prod.fst) := by
    rw [List.countP_map]
    rfl
  rw [hfst, List.enum_map_fst]
  rw [countP_range_mem _ logits.length (topkIndices_nodup _ _)
    (fun i hi => topkIndices_lt _ _ i hi)]
  exact length_topkIndices _ _

/-! `genLevels` / `generate` lemmas. -/

theorem genLevels_err (steps : List ℕ) (schedF : ℕ → ℕ → List ℕ)
    (sampledO : ℕ → ℕ → List ℕ) (scoreO : ℕ → ℕ → List ℚ) (N : ℕ) :
    ∀ ks : List ℕ, (∃ k ∈ ks, steps.length ≤ k) →
      genLevels steps schedF sampledO scoreO N ks =
        .error "IndexError: list index out of range" := by
  intro ks
  induction ks with
  | nil => rintro ⟨k, hk, _⟩; simp at hk
  | cons k0 kt ih =>
    rintro ⟨k, hk, hkl⟩
    by_cases h0 : steps.length ≤ k0
    · simp [genLevels, List.getElem?_eq_none h0]
    · rcases List.mem_cons.mp hk with he | ht
      · omega
      · have herr := ih ⟨k, ht, hkl⟩
        simp [genLevels, herr, List.getElem?_eq_getElem (by omega : k0 < steps.length)]
        rfl

theorem genLevels_ok (steps : List ℕ) (schedF : ℕ → ℕ → List ℕ)
    (sampledO : ℕ → ℕ → List ℕ) (scoreO : ℕ → ℕ → List ℚ) (N : ℕ) :
    ∀ ks : List ℕ, (∀ k ∈ ks, k < steps.length) →
      genLevels steps schedF sampledO scoreO N ks =
        .ok (ks.map (fun k =>
          decodeLevel (sampledO k) (scoreO k) (schedF k (steps.getD k 0))
            (initState N))) := by
  intro ks
  induction ks with
  | nil => intro _; rfl
  | cons k0 kt ih =>
    intro hks
    have hk0 : k0 < steps.length := hks k0 (List.mem_cons_self k0 kt)
    have hok := ih (fun k hk => hks k (List.mem_cons_of_mem _ hk))
    have hg : steps[k0]? = some (steps.getD k0 0) := by
      rw [List.getElem?_eq_getElem hk0, List.getD_eq_getElem?_getD,
        List.getElem?_eq_getElem hk0]
      rfl
    rw [show genLevels steps schedF sampledO scoreO N (k0 :: kt) =
      (match steps[k0]? with
       | none => .error "IndexError: list index out of range"
       | some S => (genLevels steps schedF sampledO scoreO N kt).map
           (fun rest =>
             decodeLevel (sampledO k0) (scoreO k0) (schedF k0 S)
               (initState N) :: rest)) from rfl, hg, hok]
    rfl

theorem generate_ok (steps : List ℕ) (schedF : ℕ → ℕ → List ℕ)
    (sampledO : ℕ → ℕ → List ℕ) (scoreO : ℕ → ℕ → List ℚ)
    (prompt : List (List ℕ)) (N : ℕ) (hsteps : 8 ≤ steps.length) :
    generate steps schedF sampledO scoreO prompt N =
      .ok (prompt ++
        (((List.range 8).map (fun k =>
          decodeLevel (sampledO k) (scoreO k) (schedF k (steps.getD k 0))
            (initState N))).map LState.seq).transpose) := by
  unfold generate
  rw [genLevels_ok steps schedF sampledO scoreO N (List.range 8)
    (fun k hk => lt_of_lt_of_le (List.mem_range.mp hk) hsteps)]
  rfl

theorem generate_err (steps : List ℕ) (schedF : ℕ → ℕ → List ℕ)
    (sampledO : ℕ → ℕ → List ℕ) (scoreO : ℕ → ℕ → List ℚ)
    (prompt : List (List ℕ)) (N : ℕ) (hsteps : steps.length < 8) :
    generate steps schedF sampledO scoreO prompt N =
      .error "IndexError: list index out of range" := by
  unfold generate
  rw [genLevels_err steps schedF sampledO scoreO N (List.range 8)
    ⟨steps.length, List.mem_range.mpr hsteps, le_refl _⟩]
  rfl

/-! Remaining helpers for the claim theorems. -/

theorem initState_StOk (N : ℕ) : StOk N (initState N) := by
  unfold initState
  refine ⟨List.length_replicate N maskTokenId, List.length_replicate N true,
    ?_, ?_⟩
  · intro p hp _
    rw [List.getD_eq_getElem?_getD, List.getElem?_replicate, if_pos hp]
    rfl
  · intro v hv
    rw [List.eq_of_mem_replicate hv]

theorem initState_flagCount (N : ℕ) : flagCount (initState N) = N := by
  show List.countP (fun b => b) (List.replicate N true) = N
  induction N with
  | zero => rfl
  | succ n ih =>
    rw [List.replicate_succ, List.countP_cons, ih]
    simp

theorem floor_round_diff (x : ℝ) : |(⌊x⌋ : ℤ) - round x| ≤ 1 := by
  rw [round_eq]
  have h1 : ⌊x⌋ ≤ ⌊x + 1/2⌋ := Int.floor_le_floor (by linarith)
  have h3 : ⌊x + 1⌋ = ⌊x⌋ + 1 := Int.floor_add_one x
  have h2 : ⌊x + 1/2⌋ ≤ ⌊x⌋ + 1 := by
    rw [← h3]
    exact Int.floor_le_floor (by linarith)
  rw [abs_le]
  omega

theorem schedSpec_one : schedSpec 1 1 [0] := by
  refine ⟨rfl, ?_⟩
  intro j hj
  have hj0 : j = 0 := by omega
  subst hj0
  have hangle : ((0 : ℕ) : ℝ) + 1 = (1 : ℝ) := by norm_num
  rw [hangle]
  norm_num [Real.cos_pi_div_two]

theorem wStream_ok : OracleStream 1 wSampled wScore := by
  intro i
  refine ⟨rfl, rfl, ?_, ?_⟩
  · intro v hv
    have : v = 3 := by simpa [wSampled] using hv
    rw [this]
    decide
  · intro s hs
    have : s = 1/2 := by simpa [wScore] using hs
    rw [this]
    norm_num

/-! Claim theorems. -/

/-- C1, counterexample: the claim "after the inner decoding loop of level k
completes, every continuation position at level k has masked flag false" is
false on the code.  With one decoding step (`S = 1`), the cosine schedule is
`[0]` (verified as `schedSpec 1 1 [0]`), so the single step takes the
`mask_num_tokens == 0` shortcut (lines 345-346 of `generate`): the provisional
fill happens but the mask tensor is never rewritten, and after the loop the
position's flag is still `true` even though its buffer value is a real sampled
code. -/
theorem c1_counterexample :
    schedSpec 1 1 [0] ∧
    (decodeLevel wSampled wScore [0] (initState 1)).flag.getD 0 false = true ∧
    (decodeLevel wSampled wScore [0] (initState 1)).seq.getD 0 0 ≠ maskTokenId :=
  ⟨schedSpec_one, by decide, by decide⟩

/-- C1 (amended): after the inner decoding loop of level k completes (with at
least one step), every continuation position's buffer value is a real sampled
code strictly below mask-id; the masked flag, however, may remain true, since
steps whose target count is zero skip the mask update (the flag is stale
bookkeeping that the rest of `generate` never reads for a finished level). -/
theorem c1_buffer_resolved (S N : ℕ) (sched : List ℕ)
    (sampledO : ℕ → List ℕ) (scoreO : ℕ → List ℚ) (hS : 1 ≤ S)
    (hsched : schedSpec S N sched) (hstr : OracleStream N sampledO scoreO)
    (p : ℕ) :
    (decodeLevel sampledO scoreO sched (initState N)).seq.getD p 0 <
      maskTokenId := by
  unfold decodeLevel
  apply decode_resolved hstr sched (initState N) (initState_StOk N)
  · exact List.length_pos.mp (by rw [hsched.1]; omega)
  · rw [hsched.1]
    exact schedSpec_last hsched hS

/-- Witness for C1 (amended) at `S = N = 1` with concrete oracles. -/
theorem c1_witness :
    schedSpec 1 1 [0] ∧ OracleStream 1 wSampled wScore ∧
    (decodeLevel wSampled wScore [0] (initState 1)).seq.getD 0 0 <
      maskTokenId :=
  ⟨schedSpec_one, wStream_ok,
    c1_buffer_resolved 1 1 [0] wSampled wScore (le_refl 1) schedSpec_one
      wStream_ok 0⟩

/-- C2: after scheduler step i (1-based) of a level decoded with S steps over N
continuation positions, the number of positions left masked — positions whose
buffer entry still holds mask-id, the spec's definition of an unresolved
position — equals the schedule entry `(cos(pi/2 * i/S) * N).long()`, and that
entry is within 1 of `round(cos(pi/2 * i/S) * N)` (the code truncates where
the claim rounds, a difference of at most one). -/
theorem c2_schedule_conformance (S N : ℕ) (sched : List ℕ)
    (sampledO : ℕ → List ℕ) (scoreO : ℕ → List ℚ)
    (hsched : schedSpec S N sched) (hstr : OracleStream N sampledO scoreO)
    (i : ℕ) (h1 : 1 ≤ i) (hiS : i ≤ S) :
    countMaskId (decodeAux sampledO scoreO (sched.take i) 0 (initState N)) =
      sched.getD (i - 1) 0 ∧
    |(sched.getD (i - 1) 0 : ℤ) -
        round (Real.cos ((i : ℝ) / (S : ℝ) * (Real.pi / 2)) * (N : ℝ))| ≤ 1 := by
  have hlen : sched.length = S := hsched.1
  have hi1 : i - 1 < sched.length := by omega
  constructor
  · have hc := decode_take_maskCount hstr sched (initState N) (initState_StOk N)
      (schedSpec_le hsched) (i - 1) hi1
    rw [show i - 1 + 1 = i from by omega] at hc
    exact hc
  · have hfl := hsched.2 (i - 1) (by omega)
    have hcast : ((i - 1 : ℕ) : ℝ) + 1 = (i : ℝ) := by
      rw [Nat.cast_sub h1]
      simp
    rw [hcast] at hfl
    rw [hfl]
    exact floor_round_diff _

/-- Witness for C2 at `S = N = i = 1` with concrete oracles. -/
theorem c2_witness :
    schedSpec 1 1 [0] ∧ OracleStream 1 wSampled wScore ∧
    (countMaskId (decodeAux wSampled wScore ([0].take 1) 0 (initState 1)) =
        [0].getD 0 0 ∧
      |([0].getD 0 0 : ℤ) -
          round (Real.cos (((1 : ℕ) : ℝ) / ((1 : ℕ) : ℝ) * (Real.pi / 2)) *
            ((1 : ℕ) : ℝ))| ≤ 1) :=
  ⟨schedSpec_one, wStream_ok,
    c2_schedule_conformance 1 1 [0] wSampled wScore schedSpec_one wStream_ok 1
      (le_refl 1) (le_refl 1)⟩

/-- C3: the set of positions whose masked flag is set back to true at
scheduler step i+1 (0-based) of a level is a subset of the positions flagged
masked immediately before that step's provisional fill; since positions
resolved at an earlier step are unflagged, they are never re-masked, and
prompt positions are outside the generation buffer entirely (the `mask`
tensor of `generate` covers only the continuation, and each level's step
writes only its own `[:, :, rvq_layer]` slice). -/
theorem c3_remask_subset (S N : ℕ) (sched : List ℕ)
    (sampledO : ℕ → List ℕ) (scoreO : ℕ → List ℚ)
    (hsched : schedSpec S N sched) (hstr : OracleStream N sampledO scoreO)
    (i : ℕ) (hi : i < sched.length) (p : ℕ)
    (hp : (decodeAux sampledO scoreO (sched.take (i + 1)) 0
        (initState N)).flag.getD p false = true) :
    (decodeAux sampledO scoreO (sched.take i) 0
        (initState N)).flag.getD p false = true := by
  apply decode_take_subset hstr sched (initState N) (initState_StOk N) ?_ i hi p hp
  rw [initState_flagCount N]
  exact schedSpec_feas hsched N (le_refl N)

/-- Witness for C3 at `S = N = 1`, step 1, position 0. -/
theorem c3_witness :
    schedSpec 1 1 [0] ∧ OracleStream 1 wSampled wScore ∧
    (decodeAux wSampled wScore ([0].take 0) 0 (initState 1)).flag.getD 0 false
      = true :=
  ⟨schedSpec_one, wStream_ok,
    c3_remask_subset 1 1 [0] wSampled wScore schedSpec_one wStream_ok 0
      (by decide) 0 (by decide)⟩

/-- C4: prompt positions `[0, t)` are never marked masked and never altered.
At training time, `_level_mask`'s mask is false on the prompt (the
`prompt_mask` of lines 183-184), so the masked input equals the input there,
and `_fine_mask` only writes from index `t` on.  At inference time the prompt
is a separate tensor that `generate` never writes; the output
`torch.cat([prompt, seq], dim=1)` begins with the prompt unchanged, and the
mask tensor covers only the continuation. -/
theorem c4_prompt_invariance (code : List ℕ) (t : ℕ) (r : ℚ) (perm : List ℕ)
    (hlen : perm.length = code.length - t) (ht : t ≤ code.length)
    (steps : List ℕ) (schedF : ℕ → ℕ → List ℕ) (sampledO : ℕ → ℕ → List ℕ)
    (scoreO : ℕ → ℕ → List ℚ) (prompt : List (List ℕ)) (N : ℕ)
    (hsteps : 8 ≤ steps.length) (j : ℕ) (hj : j < t) :
    (levelMaskBits t (code.length - t) r perm).getD j false = false ∧
    ((levelMask code t r perm).1).getD j 0 = code.getD j 0 ∧
    (j < code.length → (fineMask code t).getD j 0 = code.getD j 0) ∧
    (∀ out, generate steps schedF sampledO scoreO prompt N = .ok out →
      out.take prompt.length = prompt) := by
  refine ⟨levelMaskBits_prompt t (code.length - t) r perm j hj,
    levelMask_prompt code t r perm hlen ht j hj,
    fun hjc => fineMask_prompt code t j hj hjc, ?_⟩
  intro out hout
  rw [generate_ok steps schedF sampledO scoreO prompt N hsteps] at hout
  have hval := Except.ok.inj hout
  rw [← hval]
  exact List.take_left prompt _

/-- Witness for C4 on a two-position, prompt-length-one training example and a
length-one generation. -/
theorem c4_witness :
    ([0].length = [5, 6].length - 1) ∧ (1 ≤ [5, 6].length) ∧
    (8 ≤ ([1, 1, 1, 1, 1, 1, 1, 1] : List ℕ).length) ∧ (0 < 1) ∧
    ((levelMaskBits 1 ([5, 6].length - 1) 0 [0]).getD 0 false = false ∧
      ((levelMask [5, 6] 1 0 [0]).1).getD 0 0 = [5, 6].getD 0 0 ∧
      (0 < [5, 6].length → (fineMask [5, 6] 1).getD 0 0 = [5, 6].getD 0 0) ∧
      (∀ out, generate [1, 1, 1, 1, 1, 1, 1, 1] (fun _ _ => [0])
          (fun _ => wSampled) (fun _ => wScore) [[9, 9, 9, 9, 9, 9, 9, 9]] 1 =
            .ok out →
        out.take [[9, 9, 9, 9, 9, 9, 9, 9]].length = [[9, 9, 9, 9, 9, 9, 9, 9]])) :=
  ⟨by decide, by decide, by decide, by decide,
    c4_prompt_invariance [5, 6] 1 0 [0] (by decide) (by decide)
      [1, 1, 1, 1, 1, 1, 1, 1] (fun _ _ => [0]) (fun _ => wSampled)
      (fun _ => wScore) [[9, 9, 9, 9, 9, 9, 9, 9]] 1 (by decide) 0 (by decide)⟩

/-- C5: at a scheduler step whose target remaining-masked count is zero, the
provisional fill still takes place — every still-masked position receives its
newly sampled code, resolved positions keep their values — and no position is
set back to mask-id: the `continue` of line 346 short-circuits only lines
348-355, not the fill of line 338. -/
theorem c5_zero_step_fill (N : ℕ) (st : LState) (sampled : List ℕ)
    (score : List ℚ) (hok : StOk N st) (horc : OracleOk N sampled score) :
    (levelStep sampled score 0 st).flag = st.flag ∧
    (∀ p, st.flag.getD p false = true →
      (levelStep sampled score 0 st).seq.getD p 0 = sampled.getD p 0) ∧
    (∀ p, st.flag.getD p false = false →
      (levelStep sampled score 0 st).seq.getD p 0 = st.seq.getD p 0) ∧
    (∀ p, (levelStep sampled score 0 st).seq.getD p 0 ≠ maskTokenId) := by
  rw [levelStep_zero_eq]
  refine ⟨rfl, ?_, ?_, ?_⟩
  · intro p hp
    rw [fill_getD hok horc p, if_pos hp]
  · intro p hp
    rw [fill_getD hok horc p, hp]
    rfl
  · exact fill_no_maskId hok horc

/-- Oracle bounds of the concrete streams at step 0. -/
theorem wOracle_ok : OracleOk 1 [3] [1/2] := wStream_ok 0

/-- Witness for C5 on a one-position level. -/
theorem c5_witness :
    StOk 1 (initState 1) ∧ OracleOk 1 [3] [1/2] ∧
    ((levelStep [3] [1/2] 0 (initState 1)).flag = (initState 1).flag ∧
      (∀ p, (initState 1).flag.getD p false = true →
        (levelStep [3] [1/2] 0 (initState 1)).seq.getD p 0 = [3].getD p 0) ∧
      (∀ p, (initState 1).flag.getD p false = false →
        (levelStep [3] [1/2] 0 (initState 1)).seq.getD p 0 =
          (initState 1).seq.getD p 0) ∧
      (∀ p, (levelStep [3] [1/2] 0 (initState 1)).seq.getD p 0 ≠ maskTokenId)) :=
  ⟨initState_StOk 1, wOracle_ok,
    c5_zero_step_fill 1 (initState 1) [3] [1/2] (initState_StOk 1) wOracle_ok⟩

/-- C6, counterexample: `filter_threshold = 1` lies in the claimed range
`(0, 1]`, but `top_k` then keeps `ceil((1 - 1) * vocab) = 0` logits: every
entry becomes `-inf` and no finite logit is retained, contradicting "always
retains at least one finite logit per position". -/
theorem c6_counterexample :
    0 < (1 : ℚ) ∧ (1 : ℚ) ≤ 1 ∧
    (top_k 1 [0, 1, 2]).countP (fun o => o.isSome) = 0 := by
  refine ⟨by norm_num, le_refl 1, ?_⟩
  rw [top_k_countP 1 [0, 1, 2]]
  norm_num

/-- C6 (amended): for `filter_threshold` in the open interval `(0, 1)`,
`top_k` keeps exactly `min(ceil((1 - threshold) * vocab), vocab)` logits
(`k = ceil(...) ≥ 1`), the kept entries carry their original values and
dominate every discarded entry, and at least one finite logit is retained.
At `threshold = 1` the retained count is 0, so the claimed guarantee holds
only on `(0, 1)`, not on `(0, 1]`. -/
theorem c6_topk_amended (thres : ℚ) (logits : List ℚ) (h0 : 0 < thres)
    (h1 : thres < 1) (hne : logits ≠ []) :
    1 ≤ (Int.ceil ((1 - thres) * (logits.length : ℚ))).toNat ∧
    (top_k thres logits).countP (fun o => o.isSome) =
      min ((Int.ceil ((1 - thres) * (logits.length : ℚ))).toNat)
        logits.length ∧
    1 ≤ (top_k thres logits).countP (fun o => o.isSome) ∧
    (∀ i j : ℕ, i < logits.length → j < logits.length →
      ((top_k thres logits).getD i none).isSome →
      (top_k thres logits).getD j none = none →
      logits.getD j 0 ≤ logits.getD i 0) ∧
    (∀ i : ℕ, i < logits.length → ∀ v : ℚ,
      (top_k thres logits).getD i none = some v → v = logits.getD i 0) := by
  have hlpos : 0 < logits.length := List.length_pos.mpr hne
  have hkpos : 1 ≤ (Int.ceil ((1 - thres) * (logits.length : ℚ))).toNat := by
    have hprod : (0 : ℚ) < (1 - thres) * (logits.length : ℚ) := by
      apply mul_pos (by linarith)
      exact_mod_cast hlpos
    have := Int.ceil_pos.mpr hprod
    omega
  refine ⟨hkpos, top_k_countP thres logits, ?_, ?_, ?_⟩
  · rw [top_k_countP thres logits]
    omega
  · intro i j hi hj hkeep hdrop
    rw [top_k_getD thres logits i hi] at hkeep
    rw [top_k_getD thres logits j hj] at hdrop
    by_cases hisel : i ∈ topkIndices
        ((Int.ceil ((1 - thres) * (logits.length : ℚ))).toNat) logits
    swap
    · rw [if_neg hisel] at hkeep
      exact absurd hkeep (by decide)
    by_cases hjsel : j ∈ topkIndices
        ((Int.ceil ((1 - thres) * (logits.length : ℚ))).toNat) logits
    · rw [if_pos hjsel] at hdrop
      exact absurd hdrop (by simp)
    · obtain ⟨pr, hprsel, hprfst, hprenum⟩ := topkIndices_pair _ logits i hisel
      obtain ⟨pi, pv⟩ := pr
      simp only at hprfst
      subst hprfst
      have hqenum : (j, logits.getD j 0) ∈ logits.enum := by
        have hjl : j < logits.enum.length := by
          rw [List.enum_length]
          exact hj
        have hje : logits.enum[j] = (j, logits.getD j 0) := by
          have h1 : logits.enum[j]? = some (j, logits.getD j 0) := by
            rw [List.getElem?_enum, List.getElem?_eq_getElem hj,
              List.getD_eq_getElem?_getD, List.getElem?_eq_getElem hj]
            rfl
          rw [List.getElem?_eq_getElem hjl] at h1
          exact Option.some.inj h1
        rw [← hje]
        exact List.getElem_mem hjl
      have hqnot : (j, logits.getD j 0) ∉ selectTopP
          ((Int.ceil ((1 - thres) * (logits.length : ℚ))).toNat) logits.enum := by
        intro hmem
        exact hjsel (List.mem_map.mpr ⟨(j, logits.getD j 0), hmem, rfl⟩)
      have hdom := selectTopP_dominates _ logits.enum (pi, pv) (j, logits.getD j 0)
        hprsel hqenum hqnot
      obtain ⟨hlt, he⟩ := List.mem_enum hprenum
      have hpv : pv = logits.getD pi 0 := by
        rw [he, List.getD_eq_getElem?_getD, List.getElem?_eq_getElem hlt]
        rfl
      rw [← hpv]
      simpa using hdom
  · intro i hi v hv
    rw [top_k_getD thres logits i hi] at hv
    by_cases hisel : i ∈ topkIndices
        ((Int.ceil ((1 - thres) * (logits.length : ℚ))).toNat) logits
    · rw [if_pos hisel] at hv
      exact (Option.some.inj hv).symm
    · rw [if_neg hisel] at hv
      exact absurd hv (by simp)

/-- Witness for C6 (amended) at `threshold = 1/2` on three logits. -/
theorem c6_witness :
    0 < (1/2 : ℚ) ∧ (1/2 : ℚ) < 1 ∧ ([0, 1, 2] : List ℚ) ≠ [] ∧
    (1 ≤ (Int.ceil ((1 - (1/2 : ℚ)) * (([0, 1, 2] : List ℚ).length : ℚ))).toNat ∧
      (top_k (1/2) [0, 1, 2]).countP (fun o => o.isSome) =
        min ((Int.ceil ((1 - (1/2 : ℚ)) *
          (([0, 1, 2] : List ℚ).length : ℚ))).toNat)
          ([0, 1, 2] : List ℚ).length ∧
      1 ≤ (top_k (1/2) [0, 1, 2]).countP (fun o => o.isSome) ∧
      (∀ i j : ℕ, i < ([0, 1, 2] : List ℚ).length →
        j < ([0, 1, 2] : List ℚ).length →
        ((top_k (1/2) [0, 1, 2]).getD i none).isSome →
        (top_k (1/2) [0, 1, 2]).getD j none = none →
        ([0, 1, 2] : List ℚ).getD j 0 ≤ ([0, 1, 2] : List ℚ).getD i 0) ∧
      (∀ i : ℕ, i < ([0, 1, 2] : List ℚ).length → ∀ v : ℚ,
        (top_k (1/2) [0, 1, 2]).getD i none = some v →
        v = ([0, 1, 2] : List ℚ).getD i 0)) :=
  ⟨by norm_num, by norm_num, by decide,
    c6_topk_amended (1/2) [0, 1, 2] (by norm_num) (by norm_num) (by decide)⟩

/-- C7, counterexample: the claim says the number of positions replaced by
mask-id at the mask level equals `max(1, round(r * (time - t)))`.  With
`time - t = 5` and mask ratio `r = 12/25` (so `r * 5 = 2.4`), `_level_mask`
masks every position whose float permutation rank is strictly below the
unrounded `clamp(min=1)` threshold `2.4`, i.e. ranks 0, 1 and 2 — three
positions — while `max(1, round(2.4)) = 2`. -/
theorem c7_counterexample :
    ([0, 1, 2, 3, 4].Perm (List.range 5)) ∧ (0 : ℚ) ≤ 12/25 ∧
    (12/25 : ℚ) ≤ 1 ∧
    ((levelMask [7, 7, 7, 7, 7] 0 (12/25) [0, 1, 2, 3, 4]).1).countP
      (fun v => decide (v = maskTokenId)) = 3 ∧
    max 1 (round ((12/25 : ℚ) * ((5 : ℕ) : ℚ))).toNat = 2 := by
  refine ⟨?_, by norm_num, by norm_num, ?_, ?_⟩
  · rw [show List.range 5 = [0, 1, 2, 3, 4] from rfl]
  · have h1 : levelMaskBits 0 5 (12/25) [0, 1, 2, 3, 4] =
        [true, true, true, false, false] := by
      unfold levelMaskBits
      norm_num
    have h2 : (levelMask [7, 7, 7, 7, 7] 0 (12/25) [0, 1, 2, 3, 4]).1 =
        List.zipWith (fun m c => if m then maskTokenId else c)
          [true, true, true, false, false] [7, 7, 7, 7, 7] := by
      unfold levelMask
      rw [show ([7, 7, 7, 7, 7] : List ℕ).length - 0 = 5 from rfl, h1]
    rw [h2]
    decide
  · have hr : round ((12/25 : ℚ) * ((5 : ℕ) : ℚ)) = 2 := by
      norm_num [round_eq]
    rw [hr]
    rfl

/-- C7 (amended): the number of positions replaced by mask-id at level q for a
training example with ratio `r` and prefix `t` is `max(1, ceil(r * (time - t)))`
— a ceiling, not a rounding: the code compares integer permutation ranks
against the unrounded threshold `(r * (time - t)).clamp(min=1)`, so every rank
strictly below the threshold is masked. -/
theorem c7_mask_count_ceil (code : List ℕ) (t : ℕ) (r : ℚ) (perm : List ℕ)
    (hperm : perm.Perm (List.range (code.length - t))) (ht : t < code.length)
    (hr0 : 0 ≤ r) (hr1 : r ≤ 1) (hcode : ∀ v ∈ code, v ≠ maskTokenId) :
    ((levelMask code t r perm).1).countP (fun v => decide (v = maskTokenId)) =
      max 1 (Int.ceil (r * ((code.length - t : ℕ) : ℚ))).toNat :=
  levelMask_count code t r perm hperm ht hr1 hcode

/-- Witness for C7 (amended) on the `r = 12/25`, five-position example, where
the count is `max(1, ceil(2.4)) = 3`. -/
theorem c7_witness :
    ([0, 1, 2, 3, 4].Perm (List.range 5)) ∧ (0 < ([7, 7, 7, 7, 7] : List ℕ).length) ∧
    (0 : ℚ) ≤ 12/25 ∧ (12/25 : ℚ) ≤ 1 ∧
    (∀ v ∈ ([7, 7, 7, 7, 7] : List ℕ), v ≠ maskTokenId) ∧
    ((levelMask [7, 7, 7, 7, 7] 0 (12/25) [0, 1, 2, 3, 4]).1).countP
      (fun v => decide (v = maskTokenId)) =
      max 1 (Int.ceil ((12/25 : ℚ) *
        ((([7, 7, 7, 7, 7] : List ℕ).length - 0 : ℕ) : ℚ))).toNat :=
  ⟨by rw [show List.range 5 = [0, 1, 2, 3, 4] from rfl], by decide,
    by norm_num, by norm_num, by decide,
    c7_mask_count_ceil [7, 7, 7, 7, 7] 0 (12/25) [0, 1, 2, 3, 4]
      (by rw [show ([7, 7, 7, 7, 7] : List ℕ).length - 0 = 5 from rfl,
        show List.range 5 = [0, 1, 2, 3, 4] from rfl])
      (by decide) (by norm_num) (by norm_num) (by decide)⟩

/-- C8, counterexample: the reserved upper-level id is not distinct from the
mask id — `__init__` sets both `mask_token_id` and `mask_upper_level` to
`acoustic_codebook_size` (lines 98-99), so `_fine_mask` fills fine levels with
the very same value used as mask-id. -/
theorem c8_counterexample :
    maskUpperLevel = maskTokenId ∧
    fineMask [1, 2, 3] 1 = [1, maskUpperLevel, maskUpperLevel] :=
  ⟨rfl, rfl⟩

/-- C8 (amended): for levels above the mask level, positions from index t on
are replaced by the reserved `mask_upper_level` id, positions below t are
untouched — but that reserved id equals `mask_token_id` (both are
`acoustic_codebook_size = 1025`), not a distinct value. -/
theorem c8_upper_levels_filled (code : List ℕ) (t : ℕ) (ht : t ≤ code.length) :
    (∀ j, j < t → (fineMask code t).getD j 0 = code.getD j 0) ∧
    (∀ j, t ≤ j → j < code.length →
      (fineMask code t).getD j 0 = maskUpperLevel) ∧
    maskUpperLevel = maskTokenId :=
  ⟨fun j hj => fineMask_prompt code t j hj (by omega),
   fun j hj1 hj2 => fineMask_upper code t j hj1 hj2, rfl⟩

/-- Witness for C8 (amended) on a three-position row with prefix 1. -/
theorem c8_witness :
    (1 ≤ ([1, 2, 3] : List ℕ).length) ∧
    ((∀ j, j < 1 → (fineMask [1, 2, 3] 1).getD j 0 = [1, 2, 3].getD j 0) ∧
      (∀ j, 1 ≤ j → j < ([1, 2, 3] : List ℕ).length →
        (fineMask [1, 2, 3] 1).getD j 0 = maskUpperLevel) ∧
      maskUpperLevel = maskTokenId) :=
  ⟨by decide, c8_upper_levels_filled [1, 2, 3] 1 (by decide)⟩

/-- C9, counterexample: `_masking` does not leave the caller's tensor intact.
`rearrange(codes, 'b n q -> q b n')` is a view, and `_fine_mask` assigns
through it, so for a two-level example with `q = 0`, `t = 0` the caller's
codes are changed at level 1: `[[1, 2], [3, 4]]` becomes
`[[1, 1025], [3, 1025]]`. -/
theorem c9_counterexample :
    maskingCaller [[1, 2], [3, 4]] 2 0 0 0 [0, 1] ≠ [[1, 2], [3, 4]] := by
  decide

/-- C9 (amended): after `_masking`, the caller's tensor is unchanged at levels
`i ≤ q` (level q itself is masked via fresh `torch.where` tensors), but at
every level `i > q` the caller's row has been overwritten in place with the
fine-masked row — the same list `_masking` returns for that level — because
`_fine_mask` writes through the einops view. -/
theorem c9_caller_mutation (codes : List (List ℕ)) (nq q t : ℕ) (r : ℚ)
    (perm : List ℕ) (i : ℕ) (hi : i < nq) :
    (i ≤ q → (maskingCallerRows codes nq q t r perm).getD i [] =
      column codes i) ∧
    (q < i → (maskingCallerRows codes nq q t r perm).getD i [] =
        fineMask (column codes i) t ∧
      (maskingCallerRows codes nq q t r perm).getD i [] =
        (masking codes nq q t r perm).1.getD i []) := by
  have hrow : (maskingCallerRows codes nq q t r perm).getD i [] =
      (maskLevelRow q t r perm i (column codes i)).2 :=
    map_range_getD nq _ [] i hi
  have hout : (masking codes nq q t r perm).1.getD i [] =
      (maskLevelRow q t r perm i (column codes i)).1 :=
    map_range_getD nq _ [] i hi
  constructor
  · intro hle
    rcases Nat.lt_or_ge i q with hlt | hge
    · rw [hrow, maskLevelRow_lower q t r perm i _ hlt]
    · have hiq : i = q := by omega
      subst hiq
      rw [hrow, maskLevelRow_at]
  · intro hgt
    rw [hrow, hout, maskLevelRow_upper q t r perm i _ hgt]
    exact ⟨rfl, rfl⟩

/-- Witness for C9 (amended) on the two-level example at the mutated level 1. -/
theorem c9_witness :
    (1 < 2) ∧
    ((1 ≤ 0 → (maskingCallerRows [[1, 2], [3, 4]] 2 0 0 0 [0, 1]).getD 1 [] =
        column [[1, 2], [3, 4]] 1) ∧
      (0 < 1 → (maskingCallerRows [[1, 2], [3, 4]] 2 0 0 0 [0, 1]).getD 1 [] =
          fineMask (column [[1, 2], [3, 4]] 1) 0 ∧
        (maskingCallerRows [[1, 2], [3, 4]] 2 0 0 0 [0, 1]).getD 1 [] =
          (masking [[1, 2], [3, 4]] 2 0 0 0 [0, 1]).1.getD 1 [])) :=
  ⟨by decide, c9_caller_mutation [[1, 2], [3, 4]] 2 0 0 0 [0, 1] 1 (by decide)⟩

/-- C10, counterexample: a configuration whose steps list has length 7 while
the model has 8 quantizer levels is accepted at construction — the only
construction-time check is the codebook-size assert — so the mismatch is not
a fatal configuration error at construction time. -/
theorem c10_counterexample :
    cfg7.inferenceSteps.length = 7 ∧ cfg7.acousticNumQuantizers = 8 ∧
    mkSoundStorm cfg7 =
      .ok ⟨[1, 1, 1, 1, 1, 1, 1], 9/10, 1, 1025, 8, 1025, 1025⟩ :=
  ⟨rfl, rfl, rfl⟩

/-- C10 (amended): a steps-length mismatch is not detected at construction:
`__init__` stores `inference_steps` without checking its length, so
construction succeeds for any steps list (given the asserted codebook size).
The mismatch surfaces only inside `generate`: with fewer than 8 entries the
per-level lookup `self.steps[rvq_layer]` raises `IndexError` when the loop
reaches the missing level, and with 8 or more entries generation succeeds
(extra entries are silently ignored). -/
theorem c10_no_construction_check (cfg : Config)
    (hcb : cfg.acousticCodebookSize = 1025) (steps : List ℕ)
    (schedF : ℕ → ℕ → List ℕ) (sampledO : ℕ → ℕ → List ℕ)
    (scoreO : ℕ → ℕ → List ℚ) (prompt : List (List ℕ)) (N : ℕ) :
    mkSoundStorm cfg = .ok ⟨cfg.inferenceSteps, cfg.filterThreshold,
      cfg.temperature, cfg.acousticCodebookSize, cfg.acousticNumQuantizers,
      cfg.acousticCodebookSize, cfg.acousticCodebookSize⟩ ∧
    (steps.length < 8 → generate steps schedF sampledO scoreO prompt N =
      .error "IndexError: list index out of range") ∧
    (8 ≤ steps.length → ∃ out,
      generate steps schedF sampledO scoreO prompt N = .ok out) := by
  refine ⟨?_, fun h => generate_err steps schedF sampledO scoreO prompt N h,
    fun h => ⟨_, generate_ok steps schedF sampledO scoreO prompt N h⟩⟩
  unfold mkSoundStorm
  rw [if_pos hcb]

/-- Witness for C10 (amended) with the 7-entry configuration and both a
7-entry and an 8-entry steps list behavior, at the 7-entry list. -/
theorem c10_witness :
    cfg7.acousticCodebookSize = 1025 ∧
    (mkSoundStorm cfg7 = .ok ⟨cfg7.inferenceSteps, cfg7.filterThreshold,
        cfg7.temperature, cfg7.acousticCodebookSize,
        cfg7.acousticNumQuantizers, cfg7.acousticCodebookSize,
        cfg7.acousticCodebookSize⟩ ∧
      (([1, 1, 1, 1, 1, 1, 1] : List ℕ).length < 8 →
        generate [1, 1, 1, 1, 1, 1, 1] (fun _ _ => [0]) (fun _ => wSampled)
          (fun _ => wScore) [] 1 =
          .error "IndexError: list index out of range") ∧
      (8 ≤ ([1, 1, 1, 1, 1, 1, 1] : List ℕ).length → ∃ out,
        generate [1, 1, 1, 1, 1, 1, 1] (fun _ _ => [0]) (fun _ => wSampled)
          (fun _ => wScore) [] 1 = .ok out)) :=
  ⟨rfl, c10_no_construction_check cfg7 rfl [1, 1, 1, 1, 1, 1, 1]
    (fun _ _ => [0]) (fun _ => wSampled) (fun _ => wScore) [] 1⟩

end SoundStormPy
